import Mathlib

/-!
Verification of the grammar-miner notebook
(`docs/beta/notebooks/GrammarMiner.ipynb`).

Strings are embedded as `List Char` (`Str`); Python dicts (which preserve
insertion order) are embedded as ordered association lists.  Python's
`str.replace` (which replaces every leftmost non-overlapping occurrence) is
embedded as `replaceAll`, implemented with a structural fuel argument so all
definitions compute by kernel reduction; `replaceAll_cons` recovers the
natural unfolding equations.
-/

set_option linter.unusedVariables false

abbrev Str := List Char

/-- The trace record: a Python dict from variable name to string value. -/
abbrev Values := List (Str × Str)

/-- A grammar: a Python dict from nonterminal to its list of alternatives. -/
abbrev Grammar := List (Str × List Str)

/-- A pending substitution `(var, alt_key, value)` recorded in `new_rules`. -/
abbrev Triple := Str × Str × Str

/-- Python dict lookup `d[k]` (as an `Option`). -/
def dictGet {α : Type} : List (Str × α) → Str → Option α
  | [], _ => none
  | p :: rest, k => if p.1 = k then some p.2 else dictGet rest k

/-- Python `k in d` for a dict. -/
def containsKey {α : Type} : List (Str × α) → Str → Bool
  | [], _ => false
  | p :: rest, k => if p.1 = k then true else containsKey rest k

/-- Python dict assignment `d[k] = v`: update in place if the key exists
(keeping its insertion position), otherwise append at the end. -/
def dictSet {α : Type} : List (Str × α) → Str → α → List (Str × α)
  | [], k, v => [(k, v)]
  | p :: rest, k, v => if p.1 = k then (k, v) :: rest else p :: dictSet rest k v

/-- Python `del d[k]` (the `KeyError` on an absent key is handled at the
call site via `containsKey`). -/
def dictDelete {α : Type} : List (Str × α) → Str → List (Str × α)
  | [], _ => []
  | p :: rest, k => if p.1 = k then rest else p :: dictDelete rest k

/-- Python `s.startswith(pat)` on character lists. -/
def startsWith : Str → Str → Bool
  | [], _ => true
  | _ :: _, [] => false
  | p :: ps, c :: cs => if p = c then startsWith ps cs else false

/-- Python's substring test `pat in s`. -/
def occursIn (pat : Str) : Str → Bool
  | [] => pat.isEmpty
  | c :: rest => startsWith pat (c :: rest) || occursIn pat rest

/-- Worker for `replaceAll`, structurally recursive on the fuel.  With fuel
`s.length + 1` the fuel never runs out (each step consumes at least one
character of the scanned string). -/
def replaceAllFuel (pat rep : Str) : Nat → Str → Str
  | 0, s => s
  | _ + 1, [] => if pat.isEmpty then rep else []
  | fuel + 1, c :: rest =>
    if pat.isEmpty then rep ++ c :: replaceAllFuel pat rep fuel rest
    else if startsWith pat (c :: rest) then
      rep ++ replaceAllFuel pat rep fuel (List.drop pat.length (c :: rest))
    else c :: replaceAllFuel pat rep fuel rest

/-- Python `s.replace(pat, rep)`: replace every leftmost non-overlapping
occurrence of `pat` in `s` by `rep`, never rescanning the replacement text. -/
def replaceAll (pat rep s : Str) : Str := replaceAllFuel pat rep (s.length + 1) s

/-- Notebook cell: `def nonterminal(var): return "<" + var.lower() + ">"`.
`lowerName` is Python's `var.lower()` (per-character `toLower`; the source
only ever applies it to ASCII identifiers). -/
def lowerName (var : Str) : Str := var.map Char.toLower

/-- Notebook: convert a variable name into a grammar nonterminal. -/
def nonterminal (var : Str) : Str := '<' :: lowerName var ++ ['>']

/-- Modelled from the spec: the distinguished start symbol, imported in the
notebook as `START_SYMBOL` from the `Grammars` module that is not part of
`src/`; the spec's "a distinguished start symbol denotes the root" with the
conventional spelling `<start>`. -/
def START_SYMBOL : Str := ['<', 's', 't', 'a', 'r', 't', '>']

/-- A Python value observed in a frame's locals: a string, or anything else
(rejected by the tracer's `isinstance(value, type(''))` check). -/
inductive PyValue where
  | str (s : Str)
  | other
deriving DecidableEq

/-- Notebook `traceit`, applied to one frame event: iterate over the frame's
locals and record each variable whose value is a string of length at least 2
occurring in the traced input (`the_values[var] = value`). -/
def traceit (input : Str) (vals : Values) : List (Str × PyValue) → Values
  | [] => vals
  | (var, PyValue.str s) :: rest =>
    traceit input (if 2 ≤ s.length ∧ occursIn s input then dictSet vals var s else vals) rest
  | (_, PyValue.other) :: rest => traceit input vals rest

/-- The trace record accumulated by `traceit` over a whole traced call,
starting from the reset `the_values = {}`.  The callable's execution is
abstracted as the sequence of frame-locals snapshots the `sys.settrace`
hook observes. -/
def traceValues (input : Str) (frames : List (List (Str × PyValue))) : Values :=
  frames.foldl (traceit input) []

/-- The observable outcome of invoking the traced callable: the observed
frame events together with whether the call raised. -/
inductive CallOutcome where
  | normal (frames : List (List (Str × PyValue)))
  | raises (frames : List (List (Str × PyValue)))

/-- Notebook `trace_function`, with the state of the `sys.settrace` hook made
explicit.  The code runs `sys.settrace(traceit); o = function(the_input);
sys.settrace(None)` in a straight line with no `try`/`finally`: on normal
return the hook is cleared (`false`) and the values are returned; when the
callable raises, the exception propagates (no return value, `none`) and the
`sys.settrace(None)` line is never executed, so the hook stays installed
(`true`). -/
def trace_function_run (input : Str) : CallOutcome → Option Values × Bool
  | CallOutcome.normal frames => (some (traceValues input frames), false)
  | CallOutcome.raises frames => (none, true)

/-- One variable's scan in a `get_grammar` pass: for every rule and every
alternative `repl`, if `value in repl` then the alternative is mutated in
place to `repl.replace(value, alt_key)` and a triple is appended to
`new_rules` (one per matching alternative). -/
def passVar (var value : Str) : Grammar → Grammar × List Triple
  | [] => ([], [])
  | (key, alts) :: rest =>
    ((key, alts.map fun repl =>
        if occursIn value repl then replaceAll value (nonterminal var) repl else repl) ::
       (passVar var value rest).1,
     List.replicate (alts.countP fun repl => occursIn value repl)
       (var, nonterminal var, value) ++ (passVar var value rest).2)

/-- One full pass of `get_grammar`'s `while` loop body: scan every rule for
every traced variable still in `values`, in trace-record order, threading the
in-place mutations; return the updated grammar and `new_rules`. -/
def runPass (g : Grammar) : Values → Grammar × List Triple
  | [] => (g, [])
  | p :: vs =>
    ((runPass (passVar p.1 p.2 g).1 vs).1,
     (passVar p.1 p.2 g).2 ++ (runPass (passVar p.1 p.2 g).1 vs).2)

/-- End-of-pass promotion loop: `for (var, alt_key, value) in new_rules:
grammar[alt_key] = [value]; del values[var]`.  `del` on an absent key raises
`KeyError`, modelled as `none`. -/
def promoteRules : List Triple → Grammar → Values → Option (Grammar × Values)
  | [], g, vs => some (g, vs)
  | (var, altKey, value) :: rest, g, vs =>
    if containsKey vs var then promoteRules rest (dictSet g altKey [value]) (dictDelete vs var)
    else none

/-- `get_grammar`'s `while True` loop, structurally recursive on a fuel;
`none` means the fuel ran out (shown impossible for fuel `vs.length + 1`),
`some (none, n)` means a `KeyError` escaped after `n` substitution passes,
`some (some g, n)` is normal termination after `n` substitution passes. -/
def extractLoopFuel : Nat → Grammar → Values → Option (Option Grammar × Nat)
  | 0, _, _ => none
  | fuel + 1, g, vs =>
    if (runPass g vs).2 = [] then some (some (runPass g vs).1, 0)
    else
      match promoteRules (runPass g vs).2 (runPass g vs).1 vs with
      | none => some (none, 1)
      | some gv =>
        match extractLoopFuel fuel gv.1 gv.2 with
        | none => none
        | some rn => some (rn.1, rn.2 + 1)

/-- `get_grammar`'s loop run with sufficient fuel, together with the number
of passes that performed at least one substitution. -/
def extractLoop (g : Grammar) (vs : Values) : Option Grammar × Nat :=
  (extractLoopFuel (vs.length + 1) g vs).getD (none, 0)

/-- Notebook `get_grammar`: start from `{START_SYMBOL: [input]}`, trace the
callable (abstracted by its observed frame events), and run the substitution
loop.  `none` models an escaping `KeyError`. -/
def get_grammar (input : Str) (frames : List (List (Str × PyValue))) : Option Grammar :=
  (extractLoop [(START_SYMBOL, [input])] (traceValues input frames)).1

/-- The inner accumulation of `merge_grammars` for a rule with matching key:
`repl1` is read once (`repl1 = g1[key1]`) and the dict slot is assigned
`repl1 + [repl]` for each `repl` of `repl2` missing from the stale `repl1`;
the slot's current value starts as `repl1` itself. -/
def mergeAlts (repl1 repl2 : List Str) : List Str :=
  repl2.foldl (fun cur repl => if repl ∈ repl1 then cur else repl1 ++ [repl]) repl1

/-- Notebook `merge_grammars`, mutating `g1`: for each rule of `g2`, scan the
current keys of the merged dict; on a key match run the stale-`repl1`
accumulation; `key_found` is only set when the inner loop body runs, i.e.
when the key matches and `repl2` is non-empty, otherwise `g2`'s rule is
assigned wholesale. -/
def merge_grammars (g1 g2 : Grammar) : Grammar :=
  g2.foldl
    (fun merged p =>
      let stepped := merged.map fun q => if q.1 = p.1 then (q.1, mergeAlts q.2 p.2) else q
      if containsKey merged p.1 ∧ p.2 ≠ [] then stepped else dictSet stepped p.1 p.2)
    g1

/-- The loop of `get_merged_grammar`: `merged_grammar` starts as `None`; each
input's grammar is either taken as the initial accumulator or merged in; a
`KeyError` escaping `get_grammar` propagates (modelled by `Except.error`). -/
def mergeLoop (evFor : Str → List (List (Str × PyValue))) :
    Option Grammar → List Str → Except Unit (Option Grammar)
  | acc, [] => Except.ok acc
  | acc, input :: rest =>
    match get_grammar input (evFor input) with
    | none => Except.error ()
    | some grammar =>
      match acc with
      | none => mergeLoop evFor (some grammar) rest
      | some m => mergeLoop evFor (some (merge_grammars m grammar)) rest

/-- Notebook `get_merged_grammar`: fold the per-input grammars through
`merge_grammars`, starting from `None`. -/
def get_merged_grammar (evFor : Str → List (List (Str × PyValue)))
    (inputs : List Str) : Except Unit (Option Grammar) :=
  mergeLoop evFor none inputs

/-- One round of expanding every rule's nonterminal into its single
alternative (all rules produced by a one-input extraction are
single-alternative), in rule order. -/
def expandOnce (g : Grammar) (s : Str) : Str :=
  g.foldl
    (fun s rule =>
      match rule.2 with
      | [body] => replaceAll rule.1 body s
      | _ => s)
    s

/-- Repeated expansion rounds, as in the spec's "repeatedly replacing every
nonterminal reference with the single body of its rule". -/
def expandRounds (g : Grammar) : Nat → Str → Str
  | 0, s => s
  | n + 1, s => expandRounds g n (expandOnce g s)

/-- Modelled from the spec: "replace the first occurrence of that substring"
— a replacement that rewrites only the leftmost occurrence and leaves the
rest of the alternative as literal text, for comparison with the source's
`str.replace` (claim C2). -/
def replaceFirstFuel (pat rep : Str) : Nat → Str → Str
  | 0, s => s
  | _ + 1, [] => []
  | fuel + 1, c :: rest =>
    if startsWith pat (c :: rest) ∧ ¬ pat.isEmpty then rep ++ List.drop pat.length (c :: rest)
    else c :: replaceFirstFuel pat rep fuel rest

/-- Modelled from the spec: first-occurrence-only replacement (see
`replaceFirstFuel`). -/
def replaceFirst (pat rep s : Str) : Str := replaceFirstFuel pat rep (s.length + 1) s

/-- The process-wide globals of the notebook (`the_input`, `the_values`). -/
structure Globals where
  the_input : Option Str
  the_values : Values

/-- Notebook `trace_function` threading the globals: it overwrites
`the_input` with the new input and resets `the_values` to `{}` before
installing the hook, so nothing of the incoming global state flows into the
returned trace record. -/
def trace_function_g (gs : Globals) (input : Str)
    (frames : List (List (Str × PyValue))) : Values × Globals :=
  let gs1 : Globals := { the_input := some input, the_values := [] }
  let finalVals := frames.foldl (traceit (gs1.the_input.getD [])) gs1.the_values
  (finalVals, { the_input := gs1.the_input, the_values := finalVals })

/-- Notebook `get_grammar` threading the globals (claim C8). -/
def get_grammar_g (gs : Globals) (input : Str)
    (frames : List (List (Str × PyValue))) : Option Grammar × Globals :=
  let r := trace_function_g gs input frames
  ((extractLoop [(START_SYMBOL, [input])] r.1).1, r.2)

/-- The most recently observed qualifying value for `var` in a stream of
observations (used to characterise the tracer's last-write-wins behaviour,
claim C7). -/
def lastQualifying (input : Str) (var : Str) : List (Str × PyValue) → Option Str → Option Str
  | [], acc => acc
  | (v, PyValue.str s) :: rest, acc =>
    lastQualifying input var rest
      (if v = var ∧ 2 ≤ s.length ∧ occursIn s input then some s else acc)
  | (_, PyValue.other) :: rest, acc => lastQualifying input var rest acc

/-- A string containing neither `<` nor `>`. -/
def bracketFree (s : Str) : Prop := ∀ c ∈ s, c ≠ '<' ∧ c ≠ '>'

instance bracketFreeDecidable (s : Str) : Decidable (bracketFree s) :=
  List.decidableBAll _ s

/-- The nonterminal token for an (already case-folded) name. -/
def ntkey (n : Str) : Str := '<' :: n ++ ['>']

/-- Well-formedness of the substitution environment (case-folded name, traced
value) used in the round-trip analysis of claim C1: names and values are
non-empty and bracket-free, no value occurs inside any name, and names are
pairwise distinct. -/
def EnvOk (N : List (Str × Str)) : Prop :=
  (∀ p ∈ N, p.1 ≠ [] ∧ bracketFree p.1 ∧ p.2 ≠ [] ∧ bracketFree p.2 ∧
    ∀ q ∈ N, occursIn p.2 q.1 = false) ∧ (N.map Prod.fst).Nodup

/-- `Shaped N A s t`: the string `s` decomposes into bracket-free literal
characters and whole nonterminal tokens `<n>` with `n` drawn from the allowed
list `A`, and `t` is the string obtained by putting each token's original
traced value (from the environment `N`) back in its place. -/
inductive Shaped (N : List (Str × Str)) : List Str → Str → Str → Prop
  | nil (A : List Str) : Shaped N A [] []
  | litcons (A : List Str) (c : Char) (hc : c ≠ '<' ∧ c ≠ '>') {s t : Str}
      (h : Shaped N A s t) : Shaped N A (c :: s) (c :: t)
  | refcons (A : List Str) (n v : Str) (hmem : n ∈ A) (henv : (n, v) ∈ N) {s t : Str}
      (h : Shaped N A s t) : Shaped N A (ntkey n ++ s) (v ++ t)

/-- `RulesOk N extra rules ns`: the (promoted, start-less) rule list of an
extraction in promotion order; `ns` are the rule names in order, each body is
`Shaped` with allowed references only to names promoted strictly later (plus
the in-flight `extra` names of the current pass), and each body expands back
to its rule's original traced value. -/
inductive RulesOk (N : List (Str × Str)) (extra : List Str) : Grammar → List Str → Prop
  | nil : RulesOk N extra [] []
  | cons (n v body : Str) {rest : Grammar} {ns : List Str}
      (henv : (n, v) ∈ N) (hb : Shaped N (ns ++ extra) body v)
      (hrest : RulesOk N extra rest ns) : RulesOk N extra ((ntkey n, [body]) :: rest) (n :: ns)

/-- Loop-top invariant of `get_grammar`'s `while` loop (claim C1): the
grammar is the start rule followed by the promoted rules in promotion
order, bodies and the start alternative are `Shaped` and expand back to
their original strings, the remaining trace record's entries are drawn from
the environment, the case-folded remaining variable names and the promoted
rule names are jointly distinct, and every promoted name comes from the
environment. -/
def LoopInv (N : List (Str × Str)) (input : Str) (g : Grammar)
    (vs : Values) : Prop :=
  ∃ a rules ns,
    g = (START_SYMBOL, [a]) :: rules ∧
    RulesOk N [] rules ns ∧
    Shaped N ns a input ∧
    (∀ p ∈ vs, (lowerName p.1, p.2) ∈ N) ∧
    ((vs.map fun p => lowerName p.1) ++ ns).Nodup ∧
    (∀ x ∈ ns, x ∈ N.map Prod.fst)

/-! ## Basic lemmas: `startsWith`, `occursIn`, `replaceAll`, dict operations -/

theorem startsWith_iff {p s : Str} : startsWith p s = true ↔ p <+: s := by
  induction p generalizing s with
  | nil => simp [startsWith]
  | cons a ps ih =>
    cases s with
    | nil => simp [startsWith]
    | cons c cs =>
      simp only [startsWith]
      split
      · next h => subst h; rw [ih]; simp [List.cons_prefix_cons]
      · next h => simp [List.cons_prefix_cons, h]

theorem occursIn_iff {p : Str} : ∀ {s : Str}, occursIn p s = true ↔ p <:+: s
  | [] => by simp [occursIn, List.isEmpty_iff]
  | c :: rest => by
    simp only [occursIn, Bool.or_eq_true, startsWith_iff, occursIn_iff (s := rest)]
    exact (List.infix_cons_iff).symm

theorem occursIn_eq_false {p s : Str} : occursIn p s = false ↔ ¬ p <:+: s := by
  rw [← occursIn_iff]; cases occursIn p s <;> simp

theorem length_pos_of_ne_nil {β : Type} {p : List β} (h : p ≠ []) : 0 < p.length :=
  List.length_pos.mpr h

theorem replaceAllFuel_irrel {pat rep : Str} :
    ∀ (f1 : Nat) {f2 : Nat} {s : Str}, s.length < f1 → s.length < f2 →
      replaceAllFuel pat rep f1 s = replaceAllFuel pat rep f2 s := by
  intro f1
  induction f1 with
  | zero => intro f2 s h1 h2; omega
  | succ f ih =>
    intro f2 s h1 h2
    cases f2 with
    | zero => omega
    | succ f' =>
      cases s with
      | nil => rfl
      | cons c rest =>
        simp only [replaceAllFuel]
        by_cases hemp : pat.isEmpty
        · rw [if_pos hemp, if_pos hemp]
          have hlen : rest.length < f := by simp at h1; omega
          have hlen' : rest.length < f' := by simp at h2; omega
          rw [ih hlen hlen']
        · rw [if_neg hemp, if_neg hemp]
          have hpat : 0 < pat.length := by
            cases pat with
            | nil => simp [List.isEmpty] at hemp
            | cons a b => simp
          by_cases hsw : startsWith pat (c :: rest) = true
          · rw [if_pos hsw, if_pos hsw]
            have hd : (List.drop pat.length (c :: rest)).length < f := by
              simp only [List.length_drop, List.length_cons]
              simp at h1; omega
            have hd' : (List.drop pat.length (c :: rest)).length < f' := by
              simp only [List.length_drop, List.length_cons]
              simp at h2; omega
            rw [ih hd hd']
          · rw [if_neg hsw, if_neg hsw]
            have hlen : rest.length < f := by simp at h1; omega
            have hlen' : rest.length < f' := by simp at h2; omega
            rw [ih hlen hlen']

theorem replaceAll_nil {pat rep : Str} :
    replaceAll pat rep [] = if pat.isEmpty then rep else [] := rfl

theorem replaceAll_cons {pat rep : Str} (h : pat ≠ []) (c : Char) (rest : Str) :
    replaceAll pat rep (c :: rest) =
      if startsWith pat (c :: rest) then
        rep ++ replaceAll pat rep (List.drop pat.length (c :: rest))
      else c :: replaceAll pat rep rest := by
  have hemp : pat.isEmpty = false := by cases pat with
    | nil => exact absurd rfl h
    | cons a b => rfl
  have hpat : 0 < pat.length := length_pos_of_ne_nil h
  show replaceAllFuel pat rep ((c :: rest).length + 1) (c :: rest) = _
  have : (c :: rest).length + 1 = (rest.length + 1) + 1 := by simp
  rw [this]
  simp only [replaceAllFuel, hemp, Bool.false_eq_true, if_false]
  by_cases hsw : startsWith pat (c :: rest) = true
  · rw [if_pos hsw, if_pos hsw]
    have h1 : (List.drop pat.length (c :: rest)).length < rest.length + 1 := by
      simp only [List.length_drop, List.length_cons]; omega
    have h2 : (List.drop pat.length (c :: rest)).length <
        (List.drop pat.length (c :: rest)).length + 1 := by omega
    rw [replaceAllFuel_irrel _ h1 h2]
    rfl
  · rw [if_neg hsw, if_neg hsw]
    rfl

theorem replaceAll_not_occurs {pat rep : Str} (h : pat ≠ []) :
    ∀ {s : Str}, occursIn pat s = false → replaceAll pat rep s = s := by
  intro s
  induction s with
  | nil =>
    intro _
    rw [replaceAll_nil]
    cases pat with
    | nil => exact absurd rfl h
    | cons a b => rfl
  | cons c rest ih =>
    intro hno
    simp only [occursIn, Bool.or_eq_false_iff] at hno
    rw [replaceAll_cons h, if_neg (by simp [hno.1]), ih hno.2]

theorem replaceAll_self_append {pat rep : Str} (h : pat ≠ []) (s : Str) :
    replaceAll pat rep (pat ++ s) = rep ++ replaceAll pat rep s := by
  cases hp : pat with
  | nil => exact absurd hp h
  | cons a ps =>
    subst hp
    have hsw : startsWith (a :: ps) (a :: (ps ++ s)) = true := startsWith_iff.mpr ⟨s, rfl⟩
    have hd : List.drop (a :: ps).length (a :: (ps ++ s)) = s := by
      have hc : a :: (ps ++ s) = (a :: ps) ++ s := rfl
      rw [hc, List.drop_left]
    calc replaceAll (a :: ps) rep ((a :: ps) ++ s)
        = replaceAll (a :: ps) rep (a :: (ps ++ s)) := rfl
      _ = rep ++ replaceAll (a :: ps) rep s := by
          rw [replaceAll_cons (by simp) a (ps ++ s), if_pos hsw, hd]

theorem dictGet_dictSet {α : Type} (d : List (Str × α)) (k k' : Str) (v : α) :
    dictGet (dictSet d k v) k' = if k = k' then some v else dictGet d k' := by
  induction d with
  | nil => simp [dictSet, dictGet]
  | cons p rest ih =>
    simp only [dictSet]
    by_cases h : p.1 = k
    · rw [if_pos h]
      simp only [dictGet]
      split_ifs <;> simp_all
    · rw [if_neg h]
      simp only [dictGet, ih]
      split_ifs <;> simp_all

theorem mem_dictSet {α : Type} {d : List (Str × α)} {k : Str} {v : α} {q : Str × α} :
    q ∈ dictSet d k v → q ∈ d ∨ q = (k, v) := by
  induction d with
  | nil => simp [dictSet]
  | cons p rest ih =>
    simp only [dictSet]
    split
    · intro hq
      rcases List.mem_cons.mp hq with h | h
      · right; exact h
      · left; exact List.mem_cons_of_mem _ h
    · intro hq
      rcases List.mem_cons.mp hq with h | h
      · left; exact h ▸ List.mem_cons_self _ _
      · rcases ih h with h' | h'
        · left; exact List.mem_cons_of_mem _ h'
        · right; exact h'

theorem containsKey_iff_mem {α : Type} {d : List (Str × α)} {k : Str} :
    containsKey d k = true ↔ k ∈ d.map Prod.fst := by
  induction d with
  | nil => simp [containsKey]
  | cons p rest ih =>
    simp only [containsKey, List.map_cons, List.mem_cons]
    by_cases h : p.1 = k
    · rw [if_pos h]
      constructor
      · intro _; exact Or.inl h.symm
      · intro _; rfl
    · rw [if_neg h, ih]
      constructor
      · exact Or.inr
      · rintro (h1 | h1)
        · exact absurd h1.symm h
        · exact h1

theorem dictDelete_sublist {α : Type} (d : List (Str × α)) (k : Str) :
    List.Sublist (dictDelete d k) d := by
  induction d with
  | nil => exact List.Sublist.refl _
  | cons p rest ih =>
    simp only [dictDelete]
    by_cases h : p.1 = k
    · rw [if_pos h]; exact List.sublist_cons_self p rest
    · rw [if_neg h]; exact ih.cons₂ p

theorem dictDelete_length_le {α : Type} (d : List (Str × α)) (k : Str) :
    (dictDelete d k).length ≤ d.length :=
  (dictDelete_sublist d k).length_le

theorem dictDelete_length_lt {α : Type} {d : List (Str × α)} {k : Str}
    (h : containsKey d k = true) : (dictDelete d k).length < d.length := by
  induction d with
  | nil => simp [containsKey] at h
  | cons p rest ih =>
    simp only [containsKey] at h
    simp only [dictDelete]
    by_cases hp : p.1 = k
    · rw [if_pos hp]; simp
    · rw [if_neg hp]
      rw [if_neg hp] at h
      simpa using Nat.succ_lt_succ (ih h)

theorem dictDelete_keys_nodup {α : Type} {d : List (Str × α)} (k : Str)
    (h : (d.map Prod.fst).Nodup) : ((dictDelete d k).map Prod.fst).Nodup :=
  h.sublist ((dictDelete_sublist d k).map Prod.fst)

theorem containsKey_dictDelete_self {α : Type} {d : List (Str × α)} {k : Str}
    (h : (d.map Prod.fst).Nodup) : containsKey (dictDelete d k) k = false := by
  induction d with
  | nil => simp [dictDelete, containsKey]
  | cons p rest ih =>
    simp only [List.map_cons, List.nodup_cons] at h
    simp only [dictDelete]
    by_cases hp : p.1 = k
    · rw [if_pos hp]
      rw [Bool.eq_false_iff]
      intro hc
      exact h.1 (hp ▸ containsKey_iff_mem.mp hc)
    · rw [if_neg hp]
      simp only [containsKey, if_neg hp]
      exact ih h.2

theorem containsKey_of_dictDelete {α : Type} {d : List (Str × α)} {k k' : Str}
    (h : containsKey (dictDelete d k) k' = true) : containsKey d k' = true :=
  containsKey_iff_mem.mpr
    (((dictDelete_sublist d k).map Prod.fst).mem (containsKey_iff_mem.mp h))

theorem promoteRules_some_length {l : List Triple} :
    ∀ {g : Grammar} {vs : Values} {g2 : Grammar} {vs2 : Values},
      promoteRules l g vs = some (g2, vs2) → vs2.length ≤ vs.length := by
  induction l with
  | nil =>
    intro g vs g2 vs2 h
    simp only [promoteRules, Option.some_inj] at h
    cases h
    exact Nat.le_refl _
  | cons t rest ih =>
    intro g vs g2 vs2 h
    obtain ⟨var, altKey, value⟩ := t
    simp only [promoteRules] at h
    by_cases hc : containsKey vs var = true
    · rw [if_pos hc] at h
      exact le_trans (ih h) (dictDelete_length_le vs var)
    · rw [if_neg hc] at h
      exact absurd h (by simp)

theorem promoteRules_cons_length_lt {t : Triple} {l : List Triple}
    {g : Grammar} {vs : Values} {g2 : Grammar} {vs2 : Values}
    (h : promoteRules (t :: l) g vs = some (g2, vs2)) : vs2.length < vs.length := by
  obtain ⟨var, altKey, value⟩ := t
  simp only [promoteRules] at h
  by_cases hc : containsKey vs var = true
  · rw [if_pos hc] at h
    exact lt_of_le_of_lt (promoteRules_some_length h) (dictDelete_length_lt hc)
  · rw [if_neg hc] at h
    exact absurd h (by simp)

theorem runPass_nil_values (g : Grammar) : runPass g [] = (g, []) := rfl

theorem extractLoopFuel_suff :
    ∀ (fuel : Nat) (g : Grammar) (vs : Values), vs.length < fuel →
      ∃ r n, extractLoopFuel fuel g vs = some (r, n) ∧ n ≤ vs.length := by
  intro fuel
  induction fuel with
  | zero => intro g vs h; omega
  | succ f ih =>
    intro g vs h
    simp only [extractLoopFuel]
    by_cases hnr : (runPass g vs).2 = []
    · rw [if_pos hnr]
      exact ⟨some (runPass g vs).1, 0, rfl, Nat.zero_le _⟩
    · rw [if_neg hnr]
      have hvs : vs ≠ [] := by
        intro hv
        rw [hv, runPass_nil_values] at hnr
        exact hnr rfl
      have hvs1 : 0 < vs.length := length_pos_of_ne_nil hvs
      match hpr : promoteRules (runPass g vs).2 (runPass g vs).1 vs with
      | none => exact ⟨none, 1, rfl, hvs1⟩
      | some gv =>
        have hlt : gv.2.length < vs.length := by
          match hl : (runPass g vs).2 with
          | [] => exact absurd hl hnr
          | t :: rest =>
            rw [hl] at hpr
            have hpr2 : promoteRules (t :: rest) (runPass g vs).1 vs = some (gv.1, gv.2) := by
              rw [hpr]
            exact promoteRules_cons_length_lt hpr2
        have hlt2 : gv.2.length < f := by omega
        obtain ⟨r, n, hr, hn⟩ := ih gv.1 gv.2 hlt2
        refine ⟨r, n + 1, ?_, by omega⟩
        show (match extractLoopFuel f gv.1 gv.2 with
          | none => none
          | some rn => some (rn.1, rn.2 + 1)) = some (r, n + 1)
        rw [hr]

theorem keys_dictSet_mem {α : Type} {d : List (Str × α)} {k x : Str} {v : α} :
    x ∈ (dictSet d k v).map Prod.fst ↔ x ∈ d.map Prod.fst ∨ x = k := by
  induction d with
  | nil => simp [dictSet]
  | cons p rest ih =>
    simp only [dictSet]
    by_cases h : p.1 = k
    · rw [if_pos h]
      subst h
      simp only [List.map_cons, List.mem_cons]
      tauto
    · rw [if_neg h]
      simp only [List.map_cons, List.mem_cons, ih]
      tauto

theorem dictSet_keys_nodup {α : Type} {d : List (Str × α)} (k : Str) (v : α)
    (h : (d.map Prod.fst).Nodup) : ((dictSet d k v).map Prod.fst).Nodup := by
  induction d with
  | nil => simp [dictSet]
  | cons p rest ih =>
    simp only [List.map_cons, List.nodup_cons] at h
    simp only [dictSet]
    by_cases hp : p.1 = k
    · rw [if_pos hp]
      simp only [List.map_cons, List.nodup_cons]
      exact ⟨hp ▸ h.1, h.2⟩
    · rw [if_neg hp]
      simp only [List.map_cons, List.nodup_cons]
      refine ⟨?_, ih h.2⟩
      intro hmem
      rcases keys_dictSet_mem.mp hmem with h1 | h1
      · exact h.1 h1
      · exact hp h1

theorem traceit_keys_nodup {input : Str} :
    ∀ {obs : List (Str × PyValue)} {vals : Values},
      (vals.map Prod.fst).Nodup → ((traceit input vals obs).map Prod.fst).Nodup := by
  intro obs
  induction obs with
  | nil => intro vals h; exact h
  | cons q rest ih =>
    intro vals h
    obtain ⟨v, pv⟩ := q
    cases pv with
    | str s =>
      simp only [traceit]
      apply ih
      by_cases hq : 2 ≤ s.length ∧ occursIn s input = true
      · rw [if_pos hq]; exact dictSet_keys_nodup v s h
      · rw [if_neg hq]; exact h
    | other =>
      simp only [traceit]
      exact ih h

theorem traceit_append (input : Str) (vals : Values) (a b : List (Str × PyValue)) :
    traceit input vals (a ++ b) = traceit input (traceit input vals a) b := by
  induction a generalizing vals with
  | nil => rfl
  | cons p rest ih =>
    obtain ⟨var, pv⟩ := p
    cases pv with
    | str s =>
      simp only [List.cons_append, traceit]
      exact ih _
    | other =>
      simp only [List.cons_append, traceit]
      exact ih _

theorem traceValues_eq_join (input : Str) (frames : List (List (Str × PyValue))) :
    traceValues input frames = traceit input [] frames.flatten := by
  have key : ∀ (fs : List (List (Str × PyValue))) (vals : Values),
      fs.foldl (traceit input) vals = traceit input vals fs.flatten := by
    intro fs
    induction fs with
    | nil => intro vals; rfl
    | cons f rest ih =>
      intro vals
      simp only [List.foldl_cons, List.flatten_cons]
      rw [ih, ← traceit_append]
  exact key frames []

theorem traceValues_keys_nodup (input : Str) (frames : List (List (Str × PyValue))) :
    ((traceValues input frames).map Prod.fst).Nodup := by
  rw [traceValues_eq_join]
  exact traceit_keys_nodup (by simp)

theorem dictGet_traceit (input : Str) (var : Str) :
    ∀ (obs : List (Str × PyValue)) (vals : Values),
      dictGet (traceit input vals obs) var = lastQualifying input var obs (dictGet vals var) := by
  intro obs
  induction obs with
  | nil => intro vals; rfl
  | cons p rest ih =>
    intro vals
    obtain ⟨v, pv⟩ := p
    cases pv with
    | str s =>
      simp only [traceit, lastQualifying]
      rw [ih]
      congr 1
      by_cases hq : 2 ≤ s.length ∧ occursIn s input = true
      · rw [if_pos hq, dictGet_dictSet]
        by_cases hv : v = var
        · rw [if_pos hv, if_pos ⟨hv, hq.1, hq.2⟩]
        · rw [if_neg hv, if_neg (fun hc => hv hc.1)]
      · rw [if_neg hq, if_neg (fun hc => hq ⟨hc.2.1, hc.2.2⟩)]
    | other =>
      simp only [traceit, lastQualifying]
      exact ih _

theorem mem_traceit {input : Str} :
    ∀ {obs : List (Str × PyValue)} {vals : Values} {p : Str × Str},
      p ∈ traceit input vals obs →
      p ∈ vals ∨ (2 ≤ p.2.length ∧ occursIn p.2 input = true) := by
  intro obs
  induction obs with
  | nil => intro vals p hp; exact Or.inl hp
  | cons q rest ih =>
    intro vals p hp
    obtain ⟨v, pv⟩ := q
    cases pv with
    | str s =>
      simp only [traceit] at hp
      rcases ih hp with h | h
      · by_cases hq : 2 ≤ s.length ∧ occursIn s input = true
        · rw [if_pos hq] at h
          rcases mem_dictSet h with h1 | h1
          · exact Or.inl h1
          · right; rw [h1]; exact ⟨hq.1, hq.2⟩
        · rw [if_neg hq] at h; exact Or.inl h
      · exact Or.inr h
    | other =>
      simp only [traceit] at hp
      exact ih hp

theorem promoteRules_mem_containsKey :
    ∀ {l : List Triple} {g : Grammar} {vs : Values} {r : Grammar × Values},
      promoteRules l g vs = some r → ∀ t ∈ l, containsKey vs t.1 = true := by
  intro l
  induction l with
  | nil => intro g vs r h t ht; simp at ht
  | cons t0 rest ih =>
    intro g vs r h t ht
    obtain ⟨var, altKey, value⟩ := t0
    simp only [promoteRules] at h
    by_cases hc : containsKey vs var = true
    · rw [if_pos hc] at h
      rcases List.mem_cons.mp ht with h1 | h1
      · rw [h1]; exact hc
      · exact containsKey_of_dictDelete (ih h t h1)
    · rw [if_neg hc] at h; exact absurd h (by simp)

theorem promoteRules_vars_nodup :
    ∀ {l : List Triple} {g : Grammar} {vs : Values} {r : Grammar × Values},
      (vs.map Prod.fst).Nodup → promoteRules l g vs = some r →
      (l.map Prod.fst).Nodup := by
  intro l
  induction l with
  | nil => intro g vs r _ _; simp
  | cons t0 rest ih =>
    intro g vs r hnd h
    obtain ⟨var, altKey, value⟩ := t0
    simp only [promoteRules] at h
    by_cases hc : containsKey vs var = true
    · rw [if_pos hc] at h
      simp only [List.map_cons, List.nodup_cons]
      constructor
      · intro hmem
        obtain ⟨t, ht, hteq⟩ := List.mem_map.mp hmem
        have hck := promoteRules_mem_containsKey h t ht
        rw [hteq, containsKey_dictDelete_self hnd] at hck
        exact absurd hck (by simp)
      · exact ih (dictDelete_keys_nodup var hnd) h
    · rw [if_neg hc] at h; exact absurd h (by simp)

/-! ## Claim theorems (C2 through C10) -/

/-- C2 (counterexample): in the pass of `get_grammar` that substitutes traced
value `ab` into the start alternative `abab`, the source's `str.replace`
rewrites the alternative to `<x><x>`, not to the `<x>ab` that the claimed
first-occurrence-only substitution would produce. -/
theorem claim2_first_occurrence_counterexample :
    (passVar ['x'] ['a', 'b'] [(START_SYMBOL, [['a', 'b', 'a', 'b']])]).1 =
      [(START_SYMBOL, [['<', 'x', '>', '<', 'x', '>']])] ∧
    (passVar ['x'] ['a', 'b'] [(START_SYMBOL, [['a', 'b', 'a', 'b']])]).1 ≠
      [(START_SYMBOL,
        [replaceFirst ['a', 'b'] (nonterminal ['x']) ['a', 'b', 'a', 'b']])] := by
  constructor
  · decide
  · decide

/-- C2 (amended): when a traced value occurs in a grammar alternative, the
substitution step replaces every leftmost non-overlapping occurrence of the
value in that alternative with the nonterminal (Python `str.replace`), not
only the first one; an alternative consisting of the value twice becomes the
nonterminal twice, while still recording a single `new_rules` triple for the
alternative. -/
theorem claim2_replace_all_occurrences (var value kkey : Str) (h : value ≠ []) :
    passVar var value [(kkey, [value ++ value])] =
      ([(kkey, [nonterminal var ++ nonterminal var])],
       [(var, nonterminal var, value)]) := by
  have hemp : value.isEmpty = false := by
    cases value with
    | nil => exact absurd rfl h
    | cons a b => rfl
  have hocc : occursIn value (value ++ value) = true :=
    occursIn_iff.mpr ⟨[], value, by simp⟩
  have hval : replaceAll value (nonterminal var) value = nonterminal var := by
    have h1 := @replaceAll_self_append value (nonterminal var) h []
    rw [List.append_nil] at h1
    rw [h1, replaceAll_nil, hemp]
    simp
  have hra : replaceAll value (nonterminal var) (value ++ value) =
      nonterminal var ++ nonterminal var := by
    rw [replaceAll_self_append h, hval]
  simp only [passVar, List.map_cons, List.map_nil, List.countP_cons, List.countP_nil,
    hocc, if_pos hocc, hra]
  simp

/-- Witness for C2 (amended) at a concrete input. -/
theorem claim2_replace_all_occurrences_witness :
    passVar ['x'] ['a', 'b'] [(START_SYMBOL, [['a', 'b'] ++ ['a', 'b']])] =
      ([(START_SYMBOL, [nonterminal ['x'] ++ nonterminal ['x']])],
       [(['x'], nonterminal ['x'], ['a', 'b'])]) :=
  claim2_replace_all_occurrences ['x'] ['a', 'b'] START_SYMBOL (by decide)

/-- C3 (code_bug): merging `{"<a>": ["x"]}` with `{"<a>": ["y", "z"]}` keeps
only the last missing alternative `z` of the second grammar; `y` is lost,
because each extension is computed from the stale `repl1` list read before
the inner loop (`merged_grammar[key1] = repl1 + [repl]` overwrites the
previous extension), contradicting the claim that every alternative of `g2`
is present in the merged rule. -/
theorem claim3_merge_drops_alternative :
    merge_grammars [(['<', 'a', '>'], [['x']])] [(['<', 'a', '>'], [['y'], ['z']])] =
      [(['<', 'a', '>'], [['x'], ['z']])] := by
  decide

/-- C5 (code_bug): when the traced callable raises, `trace_function`
propagates the exception (no trace record is returned) but the
`sys.settrace(None)` line is skipped, so the process-wide hook is still
installed when the exception surfaces — the claimed restore-on-exception
does not happen. -/
theorem claim5_hook_leaks_on_exception (input : Str)
    (frames : List (List (Str × PyValue))) :
    (trace_function_run input (CallOutcome.raises frames)).1 = none ∧
    (trace_function_run input (CallOutcome.raises frames)).2 = true :=
  ⟨rfl, rfl⟩

/-- C6: extraction terminates, and the number of passes that perform at least
one substitution is at most the number of distinct traced variables: the keys
of the trace record are pairwise distinct, the loop never exhausts the fuel
`k + 1`, and the recorded substitution-pass count is at most `k`, because
every pass that promotes rules deletes at least one variable from the
record. -/
theorem claim6_pass_bound (input : Str) (frames : List (List (Str × PyValue))) :
    ((traceValues input frames).map Prod.fst).Nodup ∧
    extractLoopFuel ((traceValues input frames).length + 1)
      [(START_SYMBOL, [input])] (traceValues input frames) ≠ none ∧
    (extractLoop [(START_SYMBOL, [input])] (traceValues input frames)).2 ≤
      (traceValues input frames).length := by
  obtain ⟨r, n, hr, hn⟩ := extractLoopFuel_suff ((traceValues input frames).length + 1)
    [(START_SYMBOL, [input])] (traceValues input frames) (by omega)
  refine ⟨traceValues_keys_nodup input frames, ?_, ?_⟩
  · rw [hr]; simp
  · show ((extractLoopFuel ((traceValues input frames).length + 1)
      [(START_SYMBOL, [input])] (traceValues input frames)).getD (none, 0)).2 ≤ _
    rw [hr]
    exact hn

/-- C7: the trace record maps each variable name to the most recently
observed qualifying value for that name across the whole stream of observed
frame events — later qualifying bindings overwrite earlier ones, with no
per-frame disambiguation. -/
theorem claim7_last_write_wins (input : Str) (frames : List (List (Str × PyValue)))
    (var : Str) :
    dictGet (traceValues input frames) var =
      lastQualifying input var frames.flatten none := by
  rw [traceValues_eq_join, dictGet_traceit]
  rfl

/-- C8: extraction is deterministic: running `get_grammar` a second time on
the same (callable, input) yields exactly the same grammar, because
`trace_function` overwrites `the_input` and resets `the_values` before
tracing, so no global state from the first call flows into the second; the
result is also independent of the incoming global state altogether. -/
theorem claim8_reextraction_deterministic (gs : Globals) (input : Str)
    (frames : List (List (Str × PyValue))) :
    (get_grammar_g ((get_grammar_g gs input frames).2) input frames).1 =
      (get_grammar_g gs input frames).1 ∧
    (get_grammar_g gs input frames).1 = get_grammar input frames :=
  ⟨rfl, rfl⟩

/-- C9: if one pass records more than one `new_rules` triple for the same
variable (its value matched in several alternatives), the promotion loop
deletes the variable on the first triple and `del values[var]` raises
`KeyError` on the second, so extraction aborts instead of completing. -/
theorem claim9_duplicate_promotion_keyerror (l : List Triple) (g : Grammar)
    (vs : Values) (hnd : (vs.map Prod.fst).Nodup)
    (hdup : ¬ (l.map Prod.fst).Nodup) :
    promoteRules l g vs = none := by
  match hr : promoteRules l g vs with
  | none => rfl
  | some r => exact absurd (promoteRules_vars_nodup hnd hr) hdup

/-- Witness for C9: the duplicated triple of a value matching in two rule
bodies aborts promotion, and end to end `get_grammar` on input `abcabd` with
traced values `abc`, `abd`, `ab` raises `KeyError` (returns no grammar). -/
theorem claim9_duplicate_promotion_keyerror_witness :
    promoteRules
        [(['y'], nonterminal ['y'], ['a', 'b']), (['y'], nonterminal ['y'], ['a', 'b'])]
        [(START_SYMBOL, [['<', 'x', '1', '>', '<', 'x', '2', '>']])]
        [(['y'], ['a', 'b'])] = none ∧
    get_grammar ['a', 'b', 'c', 'a', 'b', 'd']
      [[(['x', '1'], PyValue.str ['a', 'b', 'c']),
        (['x', '2'], PyValue.str ['a', 'b', 'd']),
        (['y'], PyValue.str ['a', 'b'])]] = none := by
  constructor
  · exact claim9_duplicate_promotion_keyerror _ _ _ (by decide) (by decide)
  · decide

/-- C10: `get_merged_grammar` of an empty input sequence returns `None`
(no grammar), and of a one-element sequence returns exactly the grammar
extracted from that input, with no merge step applied. -/
theorem claim10_merged_grammar_empty_and_singleton :
    (∀ evFor : Str → List (List (Str × PyValue)),
        get_merged_grammar evFor [] = Except.ok none) ∧
    (∀ (evFor : Str → List (List (Str × PyValue))) (input : Str) (g : Grammar),
        get_grammar input (evFor input) = some g →
        get_merged_grammar evFor [input] = Except.ok (some g)) := by
  constructor
  · intro evFor; rfl
  · intro evFor input g hg
    simp only [get_merged_grammar, mergeLoop, hg]

/-- Witness for C10 at a concrete input. -/
theorem claim10_merged_grammar_empty_and_singleton_witness :
    get_merged_grammar (fun _ => [[(['x'], PyValue.str ['a', 'b'])]]) [['a', 'b', 'c']] =
      Except.ok (some [(START_SYMBOL, [['<', 'x', '>', 'c']]),
        (['<', 'x', '>'], [['a', 'b']])]) :=
  claim10_merged_grammar_empty_and_singleton.2 _ ['a', 'b', 'c'] _ (by decide)

/-- C4: a binding observed by the tracer is recorded iff its value is a
string of length at least 2 that is a substring of the traced input: every
entry of the final trace record qualifies; a qualifying string observation
updates the record; a non-qualifying string observation and a non-string
observation leave the record unchanged without error; in particular a string
of length exactly 1 is never recorded. -/
theorem claim4_tracer_filter :
    (∀ (input : Str) (frames : List (List (Str × PyValue))) (p : Str × Str),
        p ∈ traceValues input frames → 2 ≤ p.2.length ∧ occursIn p.2 input = true) ∧
    (∀ (input : Str) (vals : Values) (var s : Str),
        2 ≤ s.length → occursIn s input = true →
        traceit input vals [(var, PyValue.str s)] = dictSet vals var s) ∧
    (∀ (input : Str) (vals : Values) (var s : Str),
        ¬ (2 ≤ s.length ∧ occursIn s input = true) →
        traceit input vals [(var, PyValue.str s)] = vals) ∧
    (∀ (input : Str) (vals : Values) (var : Str),
        traceit input vals [(var, PyValue.other)] = vals) ∧
    (∀ (input : Str) (vals : Values) (var s : Str), s.length = 1 →
        traceit input vals [(var, PyValue.str s)] = vals) := by
  refine ⟨?_, ?_, ?_, ?_, ?_⟩
  · intro input frames p hp
    rw [traceValues_eq_join] at hp
    rcases mem_traceit hp with h | h
    · simp at h
    · exact h
  · intro input vals var s h1 h2
    simp only [traceit]
    rw [if_pos ⟨h1, h2⟩]
  · intro input vals var s hq
    simp only [traceit]
    rw [if_neg hq]
  · intro input vals var
    rfl
  · intro input vals var s hlen
    simp only [traceit]
    have hno : ¬ (2 ≤ s.length ∧ occursIn s input = true) := by
      rintro ⟨h2, _⟩
      rw [hlen] at h2
      exact absurd h2 (by norm_num)
    rw [if_neg hno]

/-- Witness for C4: a qualifying observation is recorded, and a length-1
string observation is silently dropped. -/
theorem claim4_tracer_filter_witness :
    traceit ['a', 'b'] [] [(['x'], PyValue.str ['a', 'b'])] = [(['x'], ['a', 'b'])] ∧
    traceit ['a', 'b'] [] [(['y'], PyValue.str ['a'])] = [] := by
  constructor
  · exact claim4_tracer_filter.2.1 ['a', 'b'] [] ['x'] ['a', 'b'] (by decide) (by decide)
  · exact claim4_tracer_filter.2.2.2.2 ['a', 'b'] [] ['y'] ['a'] (by decide)

/-! ## Round-trip analysis for claim C1: bracket and token lemmas -/

theorem startsWith_head {p c : Char} {ps cs : Str}
    (h : startsWith (p :: ps) (c :: cs) = true) : p = c ∧ startsWith ps cs = true := by
  simp only [startsWith] at h
  by_cases hpc : p = c
  · rw [if_pos hpc] at h; exact ⟨hpc, h⟩
  · rw [if_neg hpc] at h; exact absurd h (by simp)

theorem startsWith_cons_of {p c : Char} {ps cs : Str}
    (h1 : p = c) (h2 : startsWith ps cs = true) : startsWith (p :: ps) (c :: cs) = true := by
  simp only [startsWith, if_pos h1]
  exact h2

theorem startsWith_append_cases :
    ∀ {v u : Str} {c : Char} {w : Str},
      startsWith v (u ++ c :: w) = true → startsWith v u = true ∨ c ∈ v := by
  intro v u
  induction u generalizing v with
  | nil =>
    intro c w h
    cases v with
    | nil => exact Or.inl rfl
    | cons vh vt =>
      right
      rw [List.nil_append] at h
      rw [(startsWith_head h).1]
      exact List.mem_cons_self c vt
  | cons a u2 ih =>
    intro c w h
    cases v with
    | nil => exact Or.inl rfl
    | cons vh vt =>
      rw [List.cons_append] at h
      obtain ⟨hva, hsw⟩ := startsWith_head h
      rcases ih hsw with h1 | h1
      · exact Or.inl (startsWith_cons_of hva h1)
      · exact Or.inr (List.mem_cons_of_mem vh h1)

theorem occursIn_of_startsWith {v s : Str} (h : startsWith v s = true) :
    occursIn v s = true := by
  cases s with
  | nil =>
    cases v with
    | nil => rfl
    | cons vh vt => simp [startsWith] at h
  | cons c rest => simp [occursIn, h]

theorem occursIn_cons_split {v : Str} {c : Char} {rest : Str}
    (h : occursIn v (c :: rest) = false) :
    startsWith v (c :: rest) = false ∧ occursIn v rest = false := by
  simp only [occursIn, Bool.or_eq_false_iff] at h
  exact h

theorem bracketFree_cons {c : Char} {s : Str} :
    bracketFree (c :: s) ↔ (c ≠ '<' ∧ c ≠ '>') ∧ bracketFree s := by
  constructor
  · intro h
    exact ⟨h c (List.mem_cons_self c s), fun d hd => h d (List.mem_cons_of_mem c hd)⟩
  · rintro ⟨h1, h2⟩ d hd
    rcases List.mem_cons.mp hd with h3 | h3
    · rw [h3]; exact h1
    · exact h2 d h3

theorem bracketFree_append {a b : Str} :
    bracketFree (a ++ b) ↔ bracketFree a ∧ bracketFree b := by
  constructor
  · intro h
    exact ⟨fun c hc => h c (List.mem_append_left b hc),
           fun c hc => h c (List.mem_append_right a hc)⟩
  · rintro ⟨h1, h2⟩ c hc
    rcases List.mem_append.mp hc with h3 | h3
    · exact h1 c h3
    · exact h2 c h3

theorem bracketFree_of_infix {p s : Str} (hinf : p <:+: s) (hbf : bracketFree s) :
    bracketFree p := fun c hc => hbf c (hinf.subset hc)

theorem bracketFree_of_occursIn {p s : Str} (h : occursIn p s = true)
    (hbf : bracketFree s) : bracketFree p :=
  bracketFree_of_infix (occursIn_iff.mp h) hbf

theorem ntkey_length (n : Str) : (ntkey n).length = n.length + 2 := by
  simp [ntkey]

theorem ntkey_cons_form (n : Str) (s : Str) :
    ntkey n ++ s = '<' :: (n ++ '>' :: s) := by
  simp [ntkey]

theorem ntkey_inj {n m : Str} (h : ntkey n = ntkey m) : n = m := by
  simp only [ntkey] at h
  injection h with h1 h2
  have hlen : n.length = m.length := by
    have h3 := congrArg List.length h2
    simp at h3
    exact h3
  exact List.append_inj_left h2 hlen

theorem ntkey_ne_nil (q : Str) : ntkey q ≠ [] := by simp [ntkey]

theorem forcing_aux :
    ∀ {q n : Str} {rest : Str}, bracketFree q → bracketFree n →
      startsWith (q ++ ['>']) (n ++ '>' :: rest) = true → q = n := by
  intro q
  induction q with
  | nil =>
    intro n rest hq hn h
    cases n with
    | nil => rfl
    | cons a n2 =>
      exfalso
      rw [List.nil_append, List.cons_append] at h
      have := (startsWith_head h).1
      exact (hn a (List.mem_cons_self a n2)).2 this.symm
  | cons qh qt ih =>
    intro n rest hq hn h
    cases n with
    | nil =>
      exfalso
      rw [List.cons_append, List.nil_append] at h
      have := (startsWith_head h).1
      exact (hq qh (List.mem_cons_self qh qt)).2 this
    | cons a n2 =>
      rw [List.cons_append, List.cons_append] at h
      obtain ⟨h1, h2⟩ := startsWith_head h
      have h3 := ih (bracketFree_cons.mp hq).2 (bracketFree_cons.mp hn).2 h2
      rw [h1, h3]

theorem ntkey_forcing {q n : Str} {rest : Str} (hq : bracketFree q) (hn : bracketFree n)
    (h : startsWith (ntkey q) ('<' :: (n ++ '>' :: rest)) = true) : q = n := by
  have h2 : startsWith ('<' :: (q ++ ['>'])) ('<' :: (n ++ '>' :: rest)) = true := by
    simpa [ntkey] using h
  exact forcing_aux hq hn (startsWith_head h2).2

theorem startsWith_ntkey_head {q : Str} {c : Char} {cs : Str} (hc : c ≠ '<') :
    startsWith (ntkey q) (c :: cs) = false := by
  cases hs : startsWith (ntkey q) (c :: cs) with
  | false => rfl
  | true =>
    exfalso
    apply hc
    have h2 : startsWith ('<' :: (q ++ ['>'])) (c :: cs) = true := by
      simpa [ntkey] using hs
    exact (startsWith_head h2).1.symm

theorem startsWith_false_of_bracket_head {v : Str} (hv : v ≠ [])
    (hvbf : bracketFree v) {c : Char} (hc : c = '<' ∨ c = '>') (cs : Str) :
    startsWith v (c :: cs) = false := by
  cases v with
  | nil => exact absurd rfl hv
  | cons vh vt =>
    cases hs : startsWith (vh :: vt) (c :: cs) with
    | false => rfl
    | true =>
      exfalso
      have hh := (startsWith_head hs).1
      have hb := hvbf vh (List.mem_cons_self vh vt)
      rcases hc with h | h
      · exact hb.1 (hh.trans h)
      · exact hb.2 (hh.trans h)

theorem replaceAll_skip_bracketFree_then {q b : Str} :
    ∀ (u : Str) {rest : Str}, bracketFree u →
      replaceAll (ntkey q) b (u ++ '>' :: rest) = u ++ '>' :: replaceAll (ntkey q) b rest := by
  intro u
  induction u with
  | nil =>
    intro rest hu
    rw [List.nil_append, List.nil_append]
    rw [replaceAll_cons (ntkey_ne_nil q) '>' rest,
      if_neg (by simp [startsWith_ntkey_head (by decide : ('>' : Char) ≠ '<')])]
  | cons a u2 ih =>
    intro rest hu
    obtain ⟨ha, hu2⟩ := bracketFree_cons.mp hu
    rw [List.cons_append, List.cons_append]
    rw [replaceAll_cons (ntkey_ne_nil q) a (u2 ++ '>' :: rest),
      if_neg (by simp [startsWith_ntkey_head ha.1]), ih hu2]

theorem replaceAll_token_ne {q b n : Str} {srest : Str} (hq : bracketFree q)
    (hn : bracketFree n) (hne : q ≠ n) :
    replaceAll (ntkey q) b (ntkey n ++ srest) =
      ntkey n ++ replaceAll (ntkey q) b srest := by
  rw [ntkey_cons_form n srest, ntkey_cons_form n (replaceAll (ntkey q) b srest)]
  have hsw : startsWith (ntkey q) ('<' :: (n ++ '>' :: srest)) = false := by
    cases hs : startsWith (ntkey q) ('<' :: (n ++ '>' :: srest)) with
    | false => rfl
    | true => exact absurd (ntkey_forcing hq hn hs) hne
  rw [replaceAll_cons (ntkey_ne_nil q) '<' (n ++ '>' :: srest), if_neg (by simp [hsw])]
  rw [replaceAll_skip_bracketFree_then n hn]

theorem replaceAll_ntkey_bracketFree {q b : Str} :
    ∀ {t : Str}, bracketFree t → replaceAll (ntkey q) b t = t := by
  intro t
  induction t with
  | nil =>
    intro _
    rw [replaceAll_nil]
    simp [ntkey]
  | cons c rest ih =>
    intro hbf
    obtain ⟨hc, hrest⟩ := bracketFree_cons.mp hbf
    rw [replaceAll_cons (ntkey_ne_nil q) c rest,
      if_neg (by simp [startsWith_ntkey_head hc.1]), ih hrest]

theorem replaceAll_val_skip_name {v k : Str} (hv : v ≠ []) (hvbf : bracketFree v) :
    ∀ (n : Str) {srest : Str}, occursIn v n = false →
      replaceAll v k (n ++ '>' :: srest) = n ++ '>' :: replaceAll v k srest := by
  intro n
  induction n with
  | nil =>
    intro srest _
    rw [List.nil_append, List.nil_append]
    rw [replaceAll_cons hv '>' srest,
      if_neg (by simp [startsWith_false_of_bracket_head hv hvbf (Or.inr rfl)])]
  | cons a n2 ih =>
    intro srest hno
    obtain ⟨h1, h2⟩ := occursIn_cons_split hno
    rw [List.cons_append, List.cons_append]
    have h0 : startsWith v (a :: (n2 ++ '>' :: srest)) = false := by
      cases hs : startsWith v (a :: (n2 ++ '>' :: srest)) with
      | false => rfl
      | true =>
        exfalso
        have hs2 : startsWith v ((a :: n2) ++ '>' :: srest) = true := by
          simpa using hs
        rcases startsWith_append_cases hs2 with hc | hc
        · rw [h1] at hc
          exact absurd hc (by simp)
        · exact (hvbf '>' hc).2 rfl
    rw [replaceAll_cons hv a (n2 ++ '>' :: srest), if_neg (by simp [h0]), ih h2]

theorem replaceAll_val_skip_token {v k n : Str} (hv : v ≠ []) (hvbf : bracketFree v)
    (hno : occursIn v n = false) (srest : Str) :
    replaceAll v k (ntkey n ++ srest) = ntkey n ++ replaceAll v k srest := by
  rw [ntkey_cons_form n srest, ntkey_cons_form n (replaceAll v k srest)]
  have h0 : startsWith v ('<' :: (n ++ '>' :: srest)) = false :=
    startsWith_false_of_bracket_head hv hvbf (Or.inl rfl) _
  rw [replaceAll_cons hv '<' (n ++ '>' :: srest), if_neg (by simp [h0])]
  rw [replaceAll_val_skip_name hv hvbf n hno]

/-! ## `Shaped` structural lemmas -/

theorem Shaped.append {N : List (Str × Str)} {A : List Str} {s1 t1 s2 t2 : Str}
    (h1 : Shaped N A s1 t1) (h2 : Shaped N A s2 t2) :
    Shaped N A (s1 ++ s2) (t1 ++ t2) := by
  induction h1 with
  | nil => exact h2
  | litcons c hc h ih => exact Shaped.litcons A c hc ih
  | refcons n v hmem henv h ih =>
    rw [List.append_assoc, List.append_assoc]
    exact Shaped.refcons A n v hmem henv ih

theorem Shaped.lit {N : List (Str × Str)} {A : List Str} :
    ∀ {s : Str}, bracketFree s → Shaped N A s s := by
  intro s
  induction s with
  | nil => intro _; exact Shaped.nil A
  | cons c rest ih =>
    intro hbf
    obtain ⟨hc, hrest⟩ := bracketFree_cons.mp hbf
    exact Shaped.litcons A c hc (ih hrest)

theorem Shaped.mono {N : List (Str × Str)} {A A' : List Str} {s t : Str}
    (hsub : ∀ x ∈ A, x ∈ A') (h : Shaped N A s t) : Shaped N A' s t := by
  induction h with
  | nil => exact Shaped.nil A'
  | litcons c hc h ih => exact Shaped.litcons A' c hc ih
  | refcons n v hmem henv h ih => exact Shaped.refcons A' n v (hsub n hmem) henv ih

theorem Shaped.empty_allowed {N : List (Str × Str)} :
    ∀ {s t : Str}, Shaped N [] s t → s = t := by
  intro s t h
  induction h with
  | nil => rfl
  | litcons c hc h ih => rw [ih]
  | refcons n v hmem henv h ih => simp at hmem

theorem Shaped.cons_inv {N : List (Str × Str)} {A : List Str} {s t : Str}
    (h : Shaped N A s t) :
    ∀ {c : Char} {s' : Str}, s = c :: s' → c ≠ '<' →
      ∃ t', t = c :: t' ∧ Shaped N A s' t' ∧ (c ≠ '<' ∧ c ≠ '>') := by
  cases h with
  | nil =>
    intro c s' heq hc
    exact absurd heq (by simp)
  | litcons c0 hc0 h0 =>
    intro c s' heq hc
    injection heq with e1 e2
    subst e1
    subst e2
    exact ⟨_, rfl, h0, hc0⟩
  | refcons n v hmem henv h0 =>
    intro c s' heq hc
    exfalso
    apply hc
    rw [ntkey_cons_form] at heq
    injection heq with e1 e2
    exact e1.symm

theorem Shaped.token_inv {N : List (Str × Str)} {A : List Str} {s t : Str}
    (h : Shaped N A s t) :
    ∀ {s' : Str}, s = '<' :: s' →
      ∃ n v srest trest, s' = n ++ '>' :: srest ∧ t = v ++ trest ∧
        n ∈ A ∧ (n, v) ∈ N ∧ Shaped N A srest trest := by
  cases h with
  | nil =>
    intro s' heq
    exact absurd heq (by simp)
  | litcons c0 hc0 h0 =>
    intro s' heq
    injection heq with e1 e2
    exact absurd e1 hc0.1
  | refcons n v hmem henv h0 =>
    intro s' heq
    rw [ntkey_cons_form] at heq
    injection heq with e1 e2
    exact ⟨n, v, _, _, e2.symm, rfl, hmem, henv, h0⟩

theorem Shaped.peel {N : List (Str × Str)} {A : List Str} :
    ∀ {v : Str}, bracketFree v → ∀ {rest t : Str}, Shaped N A (v ++ rest) t →
      ∃ trest, t = v ++ trest ∧ Shaped N A rest trest := by
  intro v
  induction v with
  | nil =>
    intro _ rest t h
    exact ⟨t, rfl, h⟩
  | cons vh vt ih =>
    intro hbf rest t h
    obtain ⟨hc, hrest⟩ := bracketFree_cons.mp hbf
    rw [List.cons_append] at h
    obtain ⟨t', ht, hsh, _⟩ := h.cons_inv rfl hc.1
    obtain ⟨trest, ht2, hsh2⟩ := ih hrest hsh
    exact ⟨trest, by rw [ht, ht2]; rfl, hsh2⟩

theorem Shaped.nil_inv {N : List (Str × Str)} {A : List Str} {s t : Str}
    (h : Shaped N A s t) : s = [] → t = [] := by
  cases h with
  | nil => intro _; rfl
  | litcons c hc h0 => intro he; exact absurd he (by simp)
  | refcons n v hmem henv h0 =>
    intro he
    exfalso
    rw [ntkey_cons_form] at he
    simp at he

theorem env_functional {N : List (Str × Str)} (hnd : (N.map Prod.fst).Nodup) :
    ∀ {n v v' : Str}, (n, v) ∈ N → (n, v') ∈ N → v = v' := by
  induction N with
  | nil => intro n v v' h1 _; simp at h1
  | cons p rest ih =>
    intro n v v' h1 h2
    simp only [List.map_cons, List.nodup_cons] at hnd
    rcases List.mem_cons.mp h1 with e1 | e1
    · rcases List.mem_cons.mp h2 with e2 | e2
      · have e3 := e1.trans e2.symm
        exact ((Prod.mk.injEq ..).mp e3).2
      · exfalso
        apply hnd.1
        have : p.1 = n := by rw [← e1]
        rw [this]
        exact List.mem_map_of_mem Prod.fst e2
    · rcases List.mem_cons.mp h2 with e2 | e2
      · exfalso
        apply hnd.1
        have : p.1 = n := by rw [← e2]
        rw [this]
        exact List.mem_map_of_mem Prod.fst e1
      · exact ih hnd.2 e1 e2

theorem subst_preserves_shaped {N : List (Str × Str)} (hEnv : EnvOk N)
    {n v : Str} (henv : (n, v) ∈ N) {A : List Str} :
    ∀ (L : Nat) {s t : Str}, s.length ≤ L → Shaped N A s t →
      Shaped N (A ++ [n]) (replaceAll v (ntkey n) s) t := by
  have hv : v ≠ [] := (hEnv.1 _ henv).2.2.1
  have hvbf : bracketFree v := (hEnv.1 _ henv).2.2.2.1
  have hemp : v.isEmpty = false := by
    cases v with
    | nil => exact absurd rfl hv
    | cons a b => rfl
  intro L
  induction L with
  | zero =>
    intro s t hs hsh
    have hnil : s = [] := by
      cases s with
      | nil => rfl
      | cons a b => simp at hs
    subst hnil
    have ht := hsh.nil_inv rfl
    subst ht
    rw [replaceAll_nil]
    simp only [hemp, Bool.false_eq_true, if_false]
    exact Shaped.nil _
  | succ L ih =>
    intro s t hs hsh
    cases s with
    | nil =>
      have ht := hsh.nil_inv rfl
      subst ht
      rw [replaceAll_nil]
      simp only [hemp, Bool.false_eq_true, if_false]
      exact Shaped.nil _
    | cons c s2 =>
      by_cases hlt : c = '<'
      · subst hlt
        obtain ⟨n2, v2, srest, trest, hs2, ht, hmem, henv2, hsh2⟩ := hsh.token_inv rfl
        subst hs2
        subst ht
        rw [← ntkey_cons_form]
        rw [replaceAll_val_skip_token hv hvbf
          ((hEnv.1 _ henv).2.2.2.2 _ henv2) srest]
        apply Shaped.refcons _ n2 v2 (List.mem_append_left _ hmem) henv2
        apply ih ?_ hsh2
        simp only [List.length_cons, List.length_append] at hs ⊢
        omega
      · obtain ⟨t2, ht, hsh2, hcb⟩ := hsh.cons_inv rfl hlt
        subst ht
        by_cases hsw : startsWith v (c :: s2) = true
        · obtain ⟨rest, hrest⟩ := startsWith_iff.mp hsw
          rw [replaceAll_cons hv c s2, if_pos hsw]
          have hdrop : List.drop v.length (c :: s2) = rest := by
            rw [← hrest, List.drop_left]
          rw [hdrop]
          have hshv : Shaped N A (v ++ rest) (c :: t2) := by
            rw [hrest]
            exact hsh
          obtain ⟨trest, htr, hshr⟩ := Shaped.peel hvbf hshv
          rw [htr]
          apply Shaped.refcons _ n v (by simp) henv
          apply ih ?_ hshr
          have hlenv : 0 < v.length := length_pos_of_ne_nil hv
          have hlen := congrArg List.length hrest
          simp only [List.length_append, List.length_cons] at hlen hs
          omega
        · rw [replaceAll_cons hv c s2, if_neg hsw]
          apply Shaped.litcons _ c hcb
          apply ih ?_ hsh2
          simp only [List.length_cons] at hs
          omega

theorem expand_preserves_shaped {N : List (Str × Str)} (hEnv : EnvOk N)
    {q vq : Str} (henvq : (q, vq) ∈ N) {A A' : List Str}
    (hA : ∀ x ∈ A, x ∈ A' ∨ x = q) (hqA : q ∉ A')
    {b : Str} (hb : Shaped N A' b vq) :
    ∀ (L : Nat) {s t : Str}, s.length ≤ L → Shaped N A s t →
      Shaped N A' (replaceAll (ntkey q) b s) t := by
  have hqbf : bracketFree q := (hEnv.1 _ henvq).2.1
  intro L
  induction L with
  | zero =>
    intro s t hs hsh
    have hnil : s = [] := by
      cases s with
      | nil => rfl
      | cons a b => simp at hs
    subst hnil
    have ht := hsh.nil_inv rfl
    subst ht
    rw [replaceAll_nil]
    simp only [List.isEmpty_eq_true]
    rw [if_neg (ntkey_ne_nil q)]
    exact Shaped.nil _
  | succ L ih =>
    intro s t hs hsh
    cases s with
    | nil =>
      have ht := hsh.nil_inv rfl
      subst ht
      rw [replaceAll_nil]
      simp only [List.isEmpty_eq_true]
      rw [if_neg (ntkey_ne_nil q)]
      exact Shaped.nil _
    | cons c s2 =>
      by_cases hlt : c = '<'
      · subst hlt
        obtain ⟨n2, v2, srest, trest, hs2, ht, hmem, henv2, hsh2⟩ := hsh.token_inv rfl
        subst hs2
        subst ht
        rw [← ntkey_cons_form]
        by_cases hqn : n2 = q
        · subst hqn
          have hveq : v2 = vq := env_functional hEnv.2 henv2 henvq
          subst hveq
          rw [replaceAll_self_append (ntkey_ne_nil n2) srest]
          apply Shaped.append hb
          apply ih ?_ hsh2
          simp only [List.length_cons, List.length_append] at hs ⊢
          omega
        · rw [replaceAll_token_ne hqbf ((hEnv.1 _ henv2).2.1) (fun he => hqn he.symm)]
          have hmem2 : n2 ∈ A' := by
            rcases hA n2 hmem with h1 | h1
            · exact h1
            · exact absurd h1 hqn
          apply Shaped.refcons _ n2 v2 hmem2 henv2
          apply ih ?_ hsh2
          simp only [List.length_cons, List.length_append] at hs ⊢
          omega
      · obtain ⟨t2, ht, hsh2, hcb⟩ := hsh.cons_inv rfl hlt
        subst ht
        rw [replaceAll_cons (ntkey_ne_nil q) c s2,
          if_neg (by simp [startsWith_ntkey_head hlt])]
        apply Shaped.litcons _ c hcb
        apply ih ?_ hsh2
        simp only [List.length_cons] at hs
        omega

theorem replaceAll_ntkey_not_allowed {N : List (Str × Str)} (hEnv : EnvOk N)
    {q : Str} (hqbf : bracketFree q) {A : List Str} (hq : q ∉ A) {r : Str} :
    ∀ (L : Nat) {s t : Str}, s.length ≤ L → Shaped N A s t →
      replaceAll (ntkey q) r s = s := by
  intro L
  induction L with
  | zero =>
    intro s t hs hsh
    have hnil : s = [] := by
      cases s with
      | nil => rfl
      | cons a b => simp at hs
    subst hnil
    rw [replaceAll_nil]
    simp only [List.isEmpty_eq_true]
    rw [if_neg (ntkey_ne_nil q)]
  | succ L ih =>
    intro s t hs hsh
    cases s with
    | nil =>
      rw [replaceAll_nil]
      simp only [List.isEmpty_eq_true]
      rw [if_neg (ntkey_ne_nil q)]
    | cons c s2 =>
      by_cases hlt : c = '<'
      · subst hlt
        obtain ⟨n2, v2, srest, trest, hs2, ht, hmem, henv2, hsh2⟩ := hsh.token_inv rfl
        subst hs2
        rw [← ntkey_cons_form]
        have hne : q ≠ n2 := fun he => hq (he ▸ hmem)
        rw [replaceAll_token_ne hqbf ((hEnv.1 _ henv2).2.1) hne]
        rw [ih ?_ hsh2]
        simp only [List.length_cons, List.length_append] at hs ⊢
        omega
      · obtain ⟨t2, ht, hsh2, hcb⟩ := hsh.cons_inv rfl hlt
        rw [replaceAll_cons (ntkey_ne_nil q) c s2,
          if_neg (by simp [startsWith_ntkey_head hlt])]
        rw [ih ?_ hsh2]
        simp only [List.length_cons] at hs
        omega

/-! ## RulesOk lemmas and the expansion theorem -/

theorem RulesOk.keys {N : List (Str × Str)} {extra : List Str} :
    ∀ {rules : Grammar} {ns : List Str}, RulesOk N extra rules ns →
      rules.map Prod.fst = ns.map ntkey := by
  intro rules ns h
  induction h with
  | nil => rfl
  | cons n v body henv hb hrest ih => simp [ih]

theorem shaped_substOne {N : List (Str × Str)} (hEnv : EnvOk N) {n v : Str}
    (henv : (n, v) ∈ N) {A : List Str} {s t : Str} (hsh : Shaped N A s t) :
    Shaped N (A ++ [n]) (if occursIn v s then replaceAll v (ntkey n) s else s) t := by
  by_cases h : occursIn v s = true
  · rw [if_pos h]
    exact subst_preserves_shaped hEnv henv s.length (Nat.le_refl _) hsh
  · rw [if_neg h]
    exact hsh.mono fun x hx => List.mem_append_left _ hx

theorem nonterminal_eq_ntkey (var : Str) : nonterminal var = ntkey (lowerName var) := rfl

theorem RulesOk.passVar_step {N : List (Str × Str)} (hEnv : EnvOk N)
    {var value : Str} (henv : (lowerName var, value) ∈ N) :
    ∀ {rules : Grammar} {ns extra : List Str}, RulesOk N extra rules ns →
      RulesOk N (extra ++ [lowerName var]) (passVar var value rules).1 ns := by
  intro rules ns extra h
  induction h with
  | nil => exact RulesOk.nil
  | cons n v body henv2 hb hrest ih =>
    simp only [passVar, List.map_cons, List.map_nil]
    apply RulesOk.cons n v _ henv2 ?_ ih
    rw [nonterminal_eq_ntkey]
    have := shaped_substOne hEnv henv hb
    rwa [List.append_assoc] at this

theorem RulesOk.snoc {N : List (Str × Str)} {n v : Str} (henv : (n, v) ∈ N)
    (hvbf : bracketFree v) :
    ∀ {rules : Grammar} {ns extra : List Str}, RulesOk N (n :: extra) rules ns →
      RulesOk N extra (rules ++ [(ntkey n, [v])]) (ns ++ [n]) := by
  intro rules ns extra h
  induction h with
  | nil =>
    simp only [List.nil_append]
    apply RulesOk.cons n v v henv ?_ RulesOk.nil
    exact Shaped.lit hvbf
  | cons m vm body henv2 hb hrest ih =>
    simp only [List.cons_append]
    apply RulesOk.cons m vm body henv2 ?_ ih
    simpa using hb

theorem expandOnce_rule_cons (k b : Str) (rest : Grammar) (s : Str) :
    expandOnce ((k, [b]) :: rest) s = expandOnce rest (replaceAll k b s) := rfl

theorem expand_rules {N : List (Str × Str)} (hEnv : EnvOk N) :
    ∀ {rules : Grammar} {ns : List Str}, RulesOk N [] rules ns → ns.Nodup →
      ∀ {s t : Str}, Shaped N ns s t → expandOnce rules s = t := by
  intro rules ns h
  induction h with
  | nil =>
    intro _ s t hsh
    exact hsh.empty_allowed
  | cons n v body henv hb hrest ih =>
    intro hnd s t hsh
    rw [List.nodup_cons] at hnd
    rw [expandOnce_rule_cons]
    apply ih hnd.2
    rw [List.append_nil] at hb
    apply expand_preserves_shaped hEnv henv ?_ hnd.1 hb s.length (Nat.le_refl _) hsh
    intro x hx
    rcases List.mem_cons.mp hx with h1 | h1
    · exact Or.inr h1
    · exact Or.inl h1

theorem expandOnce_fixed_rules {N : List (Str × Str)} :
    ∀ {rules : Grammar} {ns extra : List Str}, RulesOk N extra rules ns →
      ∀ {t : Str}, bracketFree t → expandOnce rules t = t := by
  intro rules ns extra h
  induction h with
  | nil => intro t _; rfl
  | cons n v body henv hb hrest ih =>
    intro t hbf
    rw [expandOnce_rule_cons, replaceAll_ntkey_bracketFree hbf]
    exact ih hbf

theorem START_SYMBOL_eq_ntkey : START_SYMBOL = ntkey ['s', 't', 'a', 'r', 't'] := rfl

theorem bracketFree_start_name : bracketFree ['s', 't', 'a', 'r', 't'] := by decide

/-! ## Pass-level lemmas for claim C1 -/

theorem passVar_cons_fst (var value key : Str) (alts : List Str) (rest : Grammar) :
    (passVar var value ((key, alts) :: rest)).1 =
      (key, alts.map fun repl =>
        if occursIn value repl then replaceAll value (nonterminal var) repl else repl) ::
        (passVar var value rest).1 := rfl

theorem passVar_triples_eq {var value : Str} :
    ∀ {g : Grammar} {t : Triple}, t ∈ (passVar var value g).2 →
      t = (var, nonterminal var, value) := by
  intro g
  induction g with
  | nil => intro t ht; simp [passVar] at ht
  | cons r rest ih =>
    intro t ht
    obtain ⟨key, alts⟩ := r
    simp only [passVar, List.mem_append] at ht
    rcases ht with h | h
    · exact List.eq_of_mem_replicate h
    · exact ih h

theorem passVar_triples_replicate (var value : Str) (g : Grammar) :
    (passVar var value g).2 =
      List.replicate (passVar var value g).2.length (var, nonterminal var, value) :=
  List.eq_replicate_of_mem fun t ht => passVar_triples_eq ht

theorem passVar_no_match {var value : Str} :
    ∀ {g : Grammar}, (passVar var value g).2 = [] → (passVar var value g).1 = g := by
  intro g
  induction g with
  | nil => intro _; rfl
  | cons r rest ih =>
    obtain ⟨key, alts⟩ := r
    intro h
    simp only [passVar, List.append_eq_nil] at h
    have hc : (alts.countP fun repl => occursIn value repl) = 0 := by
      have h1 := h.1
      rwa [List.replicate_eq_nil_iff] at h1
    have hall := List.countP_eq_zero.mp hc
    simp only [passVar]
    rw [ih h.2]
    have hmap : (alts.map fun repl =>
        if occursIn value repl then replaceAll value (nonterminal var) repl else repl) = alts := by
      calc (alts.map fun repl =>
            if occursIn value repl then replaceAll value (nonterminal var) repl else repl)
          = alts.map id := List.map_congr_left fun r hr => by
            simp only [id_eq]
            rw [if_neg (hall r hr)]
        _ = alts := List.map_id alts
    rw [hmap]

theorem runPass_triples :
    ∀ (vs : Values) (g : Grammar) {t : Triple}, t ∈ (runPass g vs).2 →
      ∃ p ∈ vs, t = (p.1, nonterminal p.1, p.2) := by
  intro vs
  induction vs with
  | nil => intro g t ht; simp [runPass] at ht
  | cons p vs2 ih =>
    intro g t ht
    simp only [runPass, List.mem_append] at ht
    rcases ht with h | h
    · exact ⟨p, List.mem_cons_self .., passVar_triples_eq h⟩
    · obtain ⟨q, hq, he⟩ := ih _ h
      exact ⟨q, List.mem_cons_of_mem _ hq, he⟩

theorem runPass_no_match :
    ∀ (vs : Values) (g : Grammar), (runPass g vs).2 = [] → (runPass g vs).1 = g := by
  intro vs
  induction vs with
  | nil => intro g _; rfl
  | cons p vs2 ih =>
    intro g h
    simp only [runPass, List.append_eq_nil] at h
    have hg1 : (passVar p.1 p.2 g).1 = g := passVar_no_match h.1
    simp only [runPass]
    rw [hg1] at h ⊢
    exact ih g h.2

theorem runPass_shape {N : List (Str × Str)} (hEnv : EnvOk N) (input : Str) :
    ∀ (vs : Values) (a : Str) (rules : Grammar) (ns extra : List Str),
      (∀ p ∈ vs, (lowerName p.1, p.2) ∈ N) →
      RulesOk N extra rules ns →
      Shaped N (ns ++ extra) a input →
      ((runPass ((START_SYMBOL, [a]) :: rules) vs).2.map Prod.fst).Nodup →
      ∃ a2 rules2,
        (runPass ((START_SYMBOL, [a]) :: rules) vs).1 = (START_SYMBOL, [a2]) :: rules2 ∧
        RulesOk N
          (extra ++ ((runPass ((START_SYMBOL, [a]) :: rules) vs).2.map fun t => lowerName t.1))
          rules2 ns ∧
        Shaped N
          (ns ++ (extra ++
            ((runPass ((START_SYMBOL, [a]) :: rules) vs).2.map fun t => lowerName t.1)))
          a2 input := by
  intro vs
  induction vs with
  | nil =>
    intro a rules ns extra _ hrules hsh _
    exact ⟨a, rules, rfl, by simpa [runPass] using hrules, by simpa [runPass] using hsh⟩
  | cons p vs2 ih =>
    intro a rules ns extra hmem hrules hsh hnd
    have henvp : (lowerName p.1, p.2) ∈ N := hmem p (List.mem_cons_self ..)
    have hmem2 : ∀ q ∈ vs2, (lowerName q.1, q.2) ∈ N :=
      fun q hq => hmem q (List.mem_cons_of_mem _ hq)
    simp only [runPass, List.map_append] at hnd ⊢
    obtain ⟨hnd1, hnd2, _⟩ := List.nodup_append.mp hnd
    by_cases hc : (passVar p.1 p.2 ((START_SYMBOL, [a]) :: rules)).2 = []
    · have hg1 := passVar_no_match hc
      rw [hg1, hc]
      rw [hg1] at hnd2
      simp only [List.map_nil, List.nil_append]
      exact ih a rules ns extra hmem2 hrules hsh hnd2
    · have hrep := passVar_triples_replicate p.1 p.2 ((START_SYMBOL, [a]) :: rules)
      have hlen1 : (passVar p.1 p.2 ((START_SYMBOL, [a]) :: rules)).2.length = 1 := by
        have hle : (passVar p.1 p.2 ((START_SYMBOL, [a]) :: rules)).2.length ≤ 1 := by
          rw [hrep, List.map_replicate] at hnd1
          simpa using (List.nodup_replicate.mp hnd1)
        have hpos : 0 < (passVar p.1 p.2 ((START_SYMBOL, [a]) :: rules)).2.length :=
          length_pos_of_ne_nil hc
        omega
      have hlist : (passVar p.1 p.2 ((START_SYMBOL, [a]) :: rules)).2 =
          [(p.1, nonterminal p.1, p.2)] := by
        rw [hrep, hlen1]
        rfl
      rw [hlist]
      simp only [List.map_cons, List.map_nil, List.singleton_append]
      have hrules2 : RulesOk N (extra ++ [lowerName p.1]) (passVar p.1 p.2 rules).1 ns :=
        RulesOk.passVar_step hEnv henvp hrules
      have hsh2 : Shaped N (ns ++ (extra ++ [lowerName p.1]))
          (if occursIn p.2 a = true then replaceAll p.2 (nonterminal p.1) a else a) input := by
        have hsub := shaped_substOne hEnv henvp hsh
        rwa [List.append_assoc] at hsub
      have hstep : passVar p.1 p.2 ((START_SYMBOL, [a]) :: rules) =
          ((START_SYMBOL,
            [if occursIn p.2 a = true then replaceAll p.2 (nonterminal p.1) a else a]) ::
              (passVar p.1 p.2 rules).1,
            (passVar p.1 p.2 ((START_SYMBOL, [a]) :: rules)).2) := by
        simp [passVar]
      rw [hstep] at hnd2 ⊢
      obtain ⟨a3, rules3, hg3, hr3, hs3⟩ :=
        ih _ (passVar p.1 p.2 rules).1 ns (extra ++ [lowerName p.1]) hmem2 hrules2 hsh2 hnd2
      refine ⟨a3, rules3, hg3, ?_, ?_⟩
      · rwa [List.append_assoc, List.singleton_append] at hr3
      · rwa [List.append_assoc, List.singleton_append] at hs3

/-! ## Promotion-phase lemmas for claim C1 -/

theorem dictSet_append_of_fresh {α : Type} :
    ∀ {d : List (Str × α)} {k : Str} {v : α}, containsKey d k = false →
      dictSet d k v = d ++ [(k, v)] := by
  intro d
  induction d with
  | nil => intro k v _; rfl
  | cons p rest ih =>
    intro k v h
    simp only [containsKey] at h
    by_cases hp : p.1 = k
    · rw [if_pos hp] at h
      exact absurd h (by simp)
    · rw [if_neg hp] at h
      simp only [dictSet, if_neg hp, List.cons_append]
      rw [ih h]

theorem dictDelete_perm {α : Type} :
    ∀ {d : List (Str × α)} {k : Str}, containsKey d k = true →
      ∃ w, (k, w) ∈ d ∧ List.Perm d ((k, w) :: dictDelete d k) := by
  intro d
  induction d with
  | nil => intro k h; simp [containsKey] at h
  | cons p rest ih =>
    intro k h
    simp only [containsKey] at h
    by_cases hp : p.1 = k
    · refine ⟨p.2, ?_, ?_⟩
      · rw [← hp]
        exact List.mem_cons_self ..
      · simp only [dictDelete, if_pos hp]
        rw [← hp]
    · rw [if_neg hp] at h
      obtain ⟨w, hw, hperm⟩ := ih h
      refine ⟨w, List.mem_cons_of_mem _ hw, ?_⟩
      simp only [dictDelete, if_neg hp]
      exact (hperm.cons p).trans (List.Perm.swap (k, w) p (dictDelete rest k))

theorem promote_preserves {N : List (Str × Str)} (hEnv : EnvOk N) (input : Str)
    (hstart : ['s', 't', 'a', 'r', 't'] ∉ N.map Prod.fst) :
    ∀ (T : List Triple) (a : Str) (rules : Grammar) (ns : List Str)
      (vs : Values) (g2 : Grammar) (vs2 : Values),
      promoteRules T ((START_SYMBOL, [a]) :: rules) vs = some (g2, vs2) →
      (∀ t ∈ T, ∃ p : Str × Str, t = (p.1, nonterminal p.1, p.2) ∧
        (lowerName p.1, p.2) ∈ N) →
      RulesOk N (T.map fun t => lowerName t.1) rules ns →
      Shaped N (ns ++ T.map fun t => lowerName t.1) a input →
      (∀ p ∈ vs, (lowerName p.1, p.2) ∈ N) →
      ((vs.map fun p => lowerName p.1) ++ ns).Nodup →
      (∀ x ∈ ns, x ∈ N.map Prod.fst) →
      LoopInv N input g2 vs2 := by
  intro T
  induction T with
  | nil =>
    intro a rules ns vs g2 vs2 hpr htr hrules hsh hmem hnd hns
    simp only [promoteRules, Option.some_inj] at hpr
    cases hpr
    refine ⟨a, rules, ns, rfl, ?_, ?_, hmem, hnd, hns⟩
    · simpa using hrules
    · simpa using hsh
  | cons t T2 ih =>
    intro a rules ns vs g2 vs2 hpr htr hrules hsh hmem hnd hns
    obtain ⟨pvar, hteq, henvp⟩ := htr t (List.mem_cons_self ..)
    subst hteq
    simp only [promoteRules] at hpr
    by_cases hck : containsKey vs pvar.1 = true
    case neg =>
      rw [if_neg hck] at hpr
      exact absurd hpr (by simp)
    rw [if_pos hck] at hpr
    have hstart_ne : START_SYMBOL ≠ ntkey (lowerName pvar.1) := by
      rw [START_SYMBOL_eq_ntkey]
      intro he
      apply hstart
      have he2 : ['s', 't', 'a', 'r', 't'] = lowerName pvar.1 := ntkey_inj he
      rw [he2]
      exact List.mem_map_of_mem Prod.fst henvp
    have hmemvs : lowerName pvar.1 ∈ vs.map fun p => lowerName p.1 := by
      have h1 : pvar.1 ∈ vs.map Prod.fst := containsKey_iff_mem.mp hck
      obtain ⟨q, hq, hqe⟩ := List.mem_map.mp h1
      exact List.mem_map.mpr ⟨q, hq, by rw [hqe]⟩
    have hnotin_ns : lowerName pvar.1 ∉ ns := by
      have hdisj := (List.nodup_append.mp hnd).2.2
      exact fun hin => hdisj hmemvs hin
    have hfresh : containsKey rules (ntkey (lowerName pvar.1)) = false := by
      rw [Bool.eq_false_iff]
      intro hck2
      have h1 : ntkey (lowerName pvar.1) ∈ rules.map Prod.fst :=
        containsKey_iff_mem.mp hck2
      rw [hrules.keys] at h1
      obtain ⟨m, hm, hme⟩ := List.mem_map.mp h1
      exact hnotin_ns (ntkey_inj hme ▸ hm)
    have hset : dictSet ((START_SYMBOL, [a]) :: rules) (nonterminal pvar.1) [pvar.2] =
        (START_SYMBOL, [a]) :: (rules ++ [(ntkey (lowerName pvar.1), [pvar.2])]) := by
      rw [nonterminal_eq_ntkey]
      simp only [dictSet]
      rw [if_neg hstart_ne, dictSet_append_of_fresh hfresh]
    rw [hset] at hpr
    have hvbf : bracketFree pvar.2 := (hEnv.1 _ henvp).2.2.2.1
    have hrules2 : RulesOk N (T2.map fun t => lowerName t.1)
        (rules ++ [(ntkey (lowerName pvar.1), [pvar.2])]) (ns ++ [lowerName pvar.1]) := by
      apply RulesOk.snoc henvp hvbf
      simpa using hrules
    have hsh2 : Shaped N ((ns ++ [lowerName pvar.1]) ++ T2.map fun t => lowerName t.1)
        a input := by
      simpa [List.append_assoc] using hsh
    have hmem2 : ∀ p ∈ dictDelete vs pvar.1, (lowerName p.1, p.2) ∈ N :=
      fun q hq => hmem q ((dictDelete_sublist vs pvar.1).mem hq)
    have hnd2 : (((dictDelete vs pvar.1).map fun p => lowerName p.1) ++
        (ns ++ [lowerName pvar.1])).Nodup := by
      obtain ⟨w, hw, hperm⟩ := dictDelete_perm hck
      have hperm2 : List.Perm (vs.map fun p => lowerName p.1)
          (lowerName pvar.1 :: ((dictDelete vs pvar.1).map fun p => lowerName p.1)) := by
        have h1 := hperm.map fun p => lowerName p.1
        simpa using h1
      have hpermA := hperm2.append_right ns
      have hnd3 := hpermA.nodup hnd
      have hperm4 : List.Perm
          (((dictDelete vs pvar.1).map fun p => lowerName p.1) ++ (ns ++ [lowerName pvar.1]))
          (lowerName pvar.1 ::
            (((dictDelete vs pvar.1).map fun p => lowerName p.1) ++ ns)) := by
        rw [← List.append_assoc]
        have hcm := @List.perm_append_comm Str
          (((dictDelete vs pvar.1).map fun p => lowerName p.1) ++ ns) [lowerName pvar.1]
        simpa using hcm
      apply hperm4.symm.nodup
      simpa using hnd3
    have hns2 : ∀ x ∈ ns ++ [lowerName pvar.1], x ∈ N.map Prod.fst := by
      intro x hx
      rcases List.mem_append.mp hx with h1 | h1
      · exact hns x h1
      · rw [List.mem_singleton.mp h1]
        exact List.mem_map_of_mem Prod.fst henvp
    exact ih a (rules ++ [(ntkey (lowerName pvar.1), [pvar.2])]) (ns ++ [lowerName pvar.1])
      (dictDelete vs pvar.1) g2 vs2 hpr
      (fun t ht => htr t (List.mem_cons_of_mem _ ht)) hrules2 hsh2 hmem2 hnd2 hns2

theorem keys_nodup_of_lowered {vs : Values}
    (h : (vs.map fun p => lowerName p.1).Nodup) : (vs.map Prod.fst).Nodup := by
  have he : (vs.map fun p => lowerName p.1) = (vs.map Prod.fst).map lowerName := by
    rw [List.map_map]
    rfl
  rw [he] at h
  exact h.of_map

theorem loop_preserves {N : List (Str × Str)} (hEnv : EnvOk N) (input : Str)
    (hstart : ['s', 't', 'a', 'r', 't'] ∉ N.map Prod.fst) :
    ∀ (fuel : Nat) (g : Grammar) (vs : Values) (gf : Grammar) (np : Nat),
      LoopInv N input g vs →
      extractLoopFuel fuel g vs = some (some gf, np) →
      ∃ vsf, LoopInv N input gf vsf := by
  intro fuel
  induction fuel with
  | zero =>
    intro g vs gf np _ h
    exact absurd h (by simp [extractLoopFuel])
  | succ f ih =>
    intro g vs gf np hinv hrun
    simp only [extractLoopFuel] at hrun
    by_cases hnr : (runPass g vs).2 = []
    · rw [if_pos hnr] at hrun
      simp only [Option.some_inj] at hrun
      injection hrun with h1 h2
      injection h1 with h1
      refine ⟨vs, ?_⟩
      rw [← h1, runPass_no_match vs g hnr]
      exact hinv
    · rw [if_neg hnr] at hrun
      rcases hpr : promoteRules (runPass g vs).2 (runPass g vs).1 vs with _ | gv
      · rw [hpr] at hrun
        have hrun2 : some ((none : Option Grammar), 1) = some (some gf, np) := hrun
        simp at hrun2
      · rw [hpr] at hrun
        have hrun2 : (match extractLoopFuel f gv.1 gv.2 with
            | none => none
            | some rn => some (rn.1, rn.2 + 1)) = some (some gf, np) := hrun
        rcases hrec : extractLoopFuel f gv.1 gv.2 with _ | rn
        · rw [hrec] at hrun2
          simp at hrun2
        · rw [hrec] at hrun2
          simp only [Option.some_inj] at hrun2
          injection hrun2 with h1 h2
          obtain ⟨a, rules, ns, hg, hrules, hsh, hmem, hnd, hns⟩ := hinv
          subst hg
          have hvsnd : (vs.map Prod.fst).Nodup :=
            keys_nodup_of_lowered (List.nodup_append.mp hnd).1
          have hTnd : (((runPass ((START_SYMBOL, [a]) :: rules) vs).2).map Prod.fst).Nodup :=
            promoteRules_vars_nodup hvsnd (by rw [hpr])
          obtain ⟨a2, rules2, hg2, hrules2, hsh2⟩ :=
            runPass_shape hEnv input vs a rules ns [] hmem hrules (by simpa using hsh) hTnd
          rw [hg2] at hpr
          have htr : ∀ t ∈ (runPass ((START_SYMBOL, [a]) :: rules) vs).2,
              ∃ p : Str × Str, t = (p.1, nonterminal p.1, p.2) ∧
                (lowerName p.1, p.2) ∈ N := by
            intro t ht
            obtain ⟨p, hp, he⟩ := runPass_triples vs _ ht
            exact ⟨p, he, hmem p hp⟩
          have hinv2 : LoopInv N input gv.1 gv.2 := by
            apply promote_preserves hEnv input hstart
              ((runPass ((START_SYMBOL, [a]) :: rules) vs).2) a2 rules2 ns vs gv.1 gv.2
              (by rw [hpr]) htr (by simpa using hrules2) (by simpa using hsh2) hmem hnd hns
          have hrec2 : extractLoopFuel f gv.1 gv.2 = some (rn.1, rn.2) := hrec
          rw [h1] at hrec2
          exact ih gv.1 gv.2 gf rn.2 hinv2 hrec2

theorem expandOnce_fixed_full {N : List (Str × Str)} {rules : Grammar}
    {ns extra : List Str} (hr : RulesOk N extra rules ns) (a : Str) {t : Str}
    (hbf : bracketFree t) : expandOnce ((START_SYMBOL, [a]) :: rules) t = t := by
  rw [expandOnce_rule_cons, START_SYMBOL_eq_ntkey, replaceAll_ntkey_bracketFree hbf]
  exact expandOnce_fixed_rules hr hbf

theorem expandRounds_id_of_bracketFree {N : List (Str × Str)} {rules : Grammar}
    {ns : List Str} (hr : RulesOk N [] rules ns) (a : Str) {t : Str}
    (hbf : bracketFree t) :
    ∀ m, expandRounds ((START_SYMBOL, [a]) :: rules) m t = t := by
  intro m
  induction m with
  | zero => rfl
  | succ m ih =>
    simp only [expandRounds]
    rw [expandOnce_fixed_full hr a hbf]
    exact ih

theorem roundtrip_main {N : List (Str × Str)} (hEnv : EnvOk N) (input : Str)
    (hstart : ['s', 't', 'a', 'r', 't'] ∉ N.map Prod.fst) (hbf : bracketFree input)
    {gf : Grammar} {vsf : Values} (hinv : LoopInv N input gf vsf) :
    ∃ a, dictGet gf START_SYMBOL = some [a] ∧ expandRounds gf gf.length a = input := by
  obtain ⟨a, rules, ns, hg, hrules, hsh, _, hnd, hns⟩ := hinv
  subst hg
  have hnsnd : ns.Nodup := (List.nodup_append.mp hnd).2.1
  have hstart_ns : ['s', 't', 'a', 'r', 't'] ∉ ns := fun hmem => hstart (hns _ hmem)
  refine ⟨a, by simp [dictGet], ?_⟩
  have hlen : ((START_SYMBOL, [a]) :: rules).length = rules.length + 1 := by simp
  rw [hlen]
  simp only [expandRounds]
  have hstep1 : expandOnce ((START_SYMBOL, [a]) :: rules) a = input := by
    rw [expandOnce_rule_cons, START_SYMBOL_eq_ntkey,
      replaceAll_ntkey_not_allowed hEnv bracketFree_start_name hstart_ns a.length
        (Nat.le_refl _) hsh]
    exact expand_rules hEnv hrules hnsnd hsh
  rw [hstep1]
  exact expandRounds_id_of_bracketFree hrules a hbf rules.length

theorem traceValues_sound {input : Str} {frames : List (List (Str × PyValue))} :
    ∀ p ∈ traceValues input frames, 2 ≤ p.2.length ∧ occursIn p.2 input = true := by
  intro p hp
  rw [traceValues_eq_join] at hp
  rcases mem_traceit hp with h | h
  · simp at h
  · exact h

theorem trace_env_ok (input : Str) (frames : List (List (Str × PyValue)))
    (hin : bracketFree input)
    (hvars : ∀ p ∈ traceValues input frames,
      lowerName p.1 ≠ [] ∧ bracketFree (lowerName p.1) ∧
        lowerName p.1 ≠ ['s', 't', 'a', 'r', 't'])
    (hnodup : ((traceValues input frames).map fun p => lowerName p.1).Nodup)
    (hvalname : ∀ p ∈ traceValues input frames, ∀ q ∈ traceValues input frames,
      occursIn p.2 (lowerName q.1) = false) :
    EnvOk ((traceValues input frames).map fun p => (lowerName p.1, p.2)) := by
  constructor
  · intro p hp
    obtain ⟨q, hq, hqe⟩ := List.mem_map.mp hp
    rw [← hqe]
    have hv := hvars q hq
    have hqual := traceValues_sound q hq
    refine ⟨hv.1, hv.2.1, ?_, bracketFree_of_occursIn hqual.2 hin, ?_⟩
    · intro he
      have := hqual.1
      rw [he] at this
      simp at this
    · intro r hr
      obtain ⟨r2, hr2, hr2e⟩ := List.mem_map.mp hr
      rw [← hr2e]
      exact hvalname q hq r2 hr2
  · have he : (((traceValues input frames).map fun p => (lowerName p.1, p.2)).map Prod.fst) =
        ((traceValues input frames).map fun p => lowerName p.1) := by
      rw [List.map_map]
      rfl
    rw [he]
    exact hnodup

theorem trace_env_no_start (input : Str) (frames : List (List (Str × PyValue)))
    (hvars : ∀ p ∈ traceValues input frames,
      lowerName p.1 ≠ [] ∧ bracketFree (lowerName p.1) ∧
        lowerName p.1 ≠ ['s', 't', 'a', 'r', 't']) :
    ['s', 't', 'a', 'r', 't'] ∉
      ((traceValues input frames).map fun p => (lowerName p.1, p.2)).map Prod.fst := by
  intro hmem
  obtain ⟨r, hr, hre⟩ := List.mem_map.mp hmem
  obtain ⟨q, hq, hqe⟩ := List.mem_map.mp hr
  apply (hvars q hq).2.2
  rw [← hre, ← hqe]

/-- C1 (counterexample): on input `<x>ab` with traced value `ab` for variable
`x`, extraction rewrites the start alternative to `<x><x>`; fully expanding
the start rule's single alternative yields `abab`, not the original input
`<x>ab` — the round-trip fails when the input already contains the
nonterminal text that a substitution introduces. -/
theorem claim1_roundtrip_counterexample :
    get_grammar ['<', 'x', '>', 'a', 'b'] [[(['x'], PyValue.str ['a', 'b'])]] =
      some [(START_SYMBOL, [['<', 'x', '>', '<', 'x', '>']]),
            (['<', 'x', '>'], [['a', 'b']])] ∧
    dictGet [(START_SYMBOL, [['<', 'x', '>', '<', 'x', '>']]),
             (['<', 'x', '>'], [['a', 'b']])] START_SYMBOL =
      some [['<', 'x', '>', '<', 'x', '>']] ∧
    expandRounds [(START_SYMBOL, [['<', 'x', '>', '<', 'x', '>']]),
                  (['<', 'x', '>'], [['a', 'b']])] 2 ['<', 'x', '>', '<', 'x', '>'] =
      ['a', 'b', 'a', 'b'] ∧
    (['a', 'b', 'a', 'b'] : Str) ≠ ['<', 'x', '>', 'a', 'b'] :=
  ⟨by decide, by decide, by decide, by decide⟩

/-- C1 (amended): the round-trip holds for every input and trace in which no
collision with the introduced nonterminal text is possible: the input
contains no angle brackets, every traced variable's case-folded name is
non-empty, bracket-free, distinct from `start` and pairwise distinct, no
traced value occurs inside any case-folded variable name, and extraction
completes without `KeyError`.  Then the start rule holds a single
alternative whose full expansion (grammar-length many rounds of replacing
every rule's nonterminal by its single body) reconstructs exactly the
original input string. -/
theorem claim1_roundtrip_amended (input : Str) (frames : List (List (Str × PyValue)))
    (hin : bracketFree input)
    (hvars : ∀ p ∈ traceValues input frames,
      lowerName p.1 ≠ [] ∧ bracketFree (lowerName p.1) ∧
        lowerName p.1 ≠ ['s', 't', 'a', 'r', 't'])
    (hnodup : ((traceValues input frames).map fun p => lowerName p.1).Nodup)
    (hvalname : ∀ p ∈ traceValues input frames, ∀ q ∈ traceValues input frames,
      occursIn p.2 (lowerName q.1) = false)
    (g : Grammar) (hsucc : get_grammar input frames = some g) :
    ∃ a, dictGet g START_SYMBOL = some [a] ∧ expandRounds g g.length a = input := by
  have hEnv := trace_env_ok input frames hin hvars hnodup hvalname
  have hstartN := trace_env_no_start input frames hvars
  have hinv0 : LoopInv ((traceValues input frames).map fun p => (lowerName p.1, p.2))
      input [(START_SYMBOL, [input])] (traceValues input frames) := by
    refine ⟨input, [], [], rfl, RulesOk.nil, Shaped.lit hin, ?_, ?_, ?_⟩
    · intro p hp
      exact List.mem_map.mpr ⟨p, hp, rfl⟩
    · simpa using hnodup
    · intro x hx
      simp at hx
  obtain ⟨np, hfuel⟩ : ∃ np, extractLoopFuel ((traceValues input frames).length + 1)
      [(START_SYMBOL, [input])] (traceValues input frames) = some (some g, np) := by
    unfold get_grammar extractLoop at hsucc
    rcases he : extractLoopFuel ((traceValues input frames).length + 1)
        [(START_SYMBOL, [input])] (traceValues input frames) with _ | rn
    · rw [he] at hsucc
      simp at hsucc
    · rw [he] at hsucc
      simp only [Option.getD_some] at hsucc
      refine ⟨rn.2, ?_⟩
      apply congrArg some
      rw [← hsucc]

  obtain ⟨vsf, hinvf⟩ := loop_preserves hEnv input hstartN _ _ _ g np hinv0 hfuel
  exact roundtrip_main hEnv input hstartN hin hinvf

/-- Witness for C1 (amended): on input `ab cd` with traced variables `X`
mapping to `ab` and `Y` mapping to `cd`, extraction succeeds and the start
alternative `<x> <y>` expands back to `ab cd`. -/
theorem claim1_roundtrip_amended_witness :
    ∃ a, dictGet [(START_SYMBOL, [['<', 'x', '>', ' ', '<', 'y', '>']]),
        (['<', 'x', '>'], [['a', 'b']]), (['<', 'y', '>'], [['c', 'd']])] START_SYMBOL =
      some [a] ∧
    expandRounds [(START_SYMBOL, [['<', 'x', '>', ' ', '<', 'y', '>']]),
        (['<', 'x', '>'], [['a', 'b']]), (['<', 'y', '>'], [['c', 'd']])] 3 a =
      ['a', 'b', ' ', 'c', 'd'] :=
  claim1_roundtrip_amended ['a', 'b', ' ', 'c', 'd']
    [[(['X'], PyValue.str ['a', 'b']), (['Y'], PyValue.str ['c', 'd'])]]
    (by decide) (by decide) (by decide) (by decide)
    [(START_SYMBOL, [['<', 'x', '>', ' ', '<', 'y', '>']]),
     (['<', 'x', '>'], [['a', 'b']]), (['<', 'y', '>'], [['c', 'd']])]
    (by decide)
